import Mathlib

/-!
Shallow embedding of the translation synchronization engine of the
`@iobroker/adapter-dev` package.

The embedding models, at the data level, the module `src/translate.ts`
(the rate-limit governor, the translation cache and `translateText`) and
the reconciliation / conversion handlers of
`src/translate-adapter-handlers.ts` (`translateI18nJson`,
`translateNotExisting`, `translateI18n`, `adminWords2languages`,
`adminLanguages2words`, and the key-sorting part of
`convertTranslationJson2LanguageJson`).

JavaScript objects with string values are modelled as ordered association
lists (`Obj`), preserving JavaScript property-insertion order, because key
order is observable in the JSON files the tool writes.  Exceptions thrown
by `translateText` (`TranslationSkippedError`) are modelled with `Except`.
The external translator provider is modelled as an oracle mapping the
global invocation count plus the request to an outcome; the module-level
mutable variables of `translate.ts` are threaded through explicitly as a
`World` record which also carries an instrumentation log of the observable
effects (provider invocations, retry waits, logged error messages).
-/

namespace AdapterDev

/-- A JavaScript string-valued object, as an insertion-ordered list of
`(key, value)` pairs.  Keys are unique in every object the tool builds. -/
abbrev Obj := List (String × String)

/-- `o[k]` — JavaScript property read on an insertion-ordered object with
values of type `β`; `undefined` becomes `none`.  JavaScript object keys
are unique, so the first match is the only one. -/
def jsGet {β : Type} : List (String × β) → String → Option β
  | [], _ => none
  | p :: o, k => if p.1 = k then some p.2 else jsGet o k

/-- `o[k] = v` — JavaScript property write: an existing key keeps its
position, a new key is appended at the end. -/
def jsSet {β : Type} : List (String × β) → String → β → List (String × β)
  | [], k, v => [(k, v)]
  | p :: o, k, v => if p.1 = k then (k, v) :: o else p :: jsSet o k v

/-- `o[k]` for a string-valued object. -/
def objGet (o : Obj) (k : String) : Option String := jsGet o k

/-- `o[k] = v` for a string-valued object. -/
def objSet (o : Obj) (k v : String) : Obj := jsSet o k v

/-- JavaScript truthiness of the property `o[k]`: present and not the
empty string (`""` is the only falsy string). -/
def objTruthy (o : Obj) (k : String) : Bool :=
  match objGet o k with
  | some s => s ≠ ""
  | none => false

/-- The key list of an object in property order (`Object.keys`). -/
def jsKeys {β : Type} (o : List (String × β)) : List String :=
  o.map (fun p => p.1)

/-- `Object.keys` of a string-valued object. -/
def objKeys (o : Obj) : List String := jsKeys o

/-- Outcome of one invocation of the selected translator provider
(`translator.translate(text, targetLang)` in `translateText`):
success, a rate-limit signal (HTTP 429 / `RateLimitedError`) with the
`retryAfter` value the caller extracts from it, or a generic failure
with an error message. -/
inductive ProviderOutcome where
  | ok (translated : String)
  | rateLimited (retryAfter : Option Nat)
  | failure (msg : String)
deriving Repr, DecidableEq

/-- The provider oracle: outcome of the `n`-th provider invocation of the
process (0-based), for a given `(text, targetLang)` request. -/
abbrev Provider := Nat → String → String → ProviderOutcome

/-- The module-level mutable state of `src/translate.ts` together with an
instrumentation log of observable effects.

* `isRateLimited`, `rateLimitRetryAfter`, `rateLimitMaxWaitTime`,
  `translationsSkippedDueToRateLimit` are the rate-limiting variables
  (lines 13-16 of `translate.ts`).
* `cache` models `translationCache`: the per-language two-level map is
  flattened to entries keyed by `(targetLang, text)`; creating an empty
  per-language map is a structural no-op here.
* `providerCalls` counts provider invocations, `waits` records the
  seconds slept before retries, `errors` the messages passed to
  `error(...)`. -/
structure World where
  isRateLimited : Bool
  rateLimitRetryAfter : Option Nat
  rateLimitMaxWaitTime : Nat
  translationsSkippedDueToRateLimit : Bool
  cache : List ((String × String) × String)
  providerCalls : Nat
  waits : List Nat
  errors : List String
deriving Repr, DecidableEq

/-- The state after `resetRateLimitState()` / process start, with the
default `rateLimitMaxWaitTime = 10` and an empty cache. -/
def World.fresh : World :=
  { isRateLimited := false
    rateLimitRetryAfter := none
    rateLimitMaxWaitTime := 10
    translationsSkippedDueToRateLimit := false
    cache := []
    providerCalls := 0
    waits := []
    errors := [] }

/-- Lookup in the translation cache (`langCache.has/get`). -/
def cacheLookup : List ((String × String) × String) → String → String →
    Option String
  | [], _, _ => none
  | e :: c, targetLang, text =>
    if e.1 = (targetLang, text) then some e.2 else cacheLookup c targetLang text

/-- `langCache.set(text, translated)`.  Prepending gives the same lookup
semantics as `Map.set` because `cacheLookup` returns the first match. -/
def cacheSet (cache : List ((String × String) × String))
    (targetLang text translated : String) : List ((String × String) × String) :=
  ((targetLang, text), translated) :: cache

/-- The blank test `text.trim() === ""` of `translateText` (line 135):
a string trims to the empty string exactly when every character is
whitespace. -/
def isBlank (s : String) : Bool := s.data.all (fun c => c.isWhitespace)

/-- Result of `translateText`: a returned string, or the thrown
`TranslationSkippedError` carrying the target language and the recorded
`retryAfter`. -/
inductive TransResult where
  | ok (s : String)
  | skipped (targetLang : String) (retryAfter : Option Nat)
deriving Repr, DecidableEq

/-- `maxRetries` constant of `translateText` (line 162). -/
def maxRetries : Nat := 1

/-- The `shouldRetry` condition of `translateText` (lines 196-200). -/
def shouldRetry (retryCount : Nat) (maxWaitTime : Nat)
    (retryAfter : Option Nat) : Bool :=
  decide (retryCount < maxRetries) && decide (0 < maxWaitTime) &&
    match retryAfter with
    | some ra => decide (ra ≤ maxWaitTime)
    | none => false

/-- The error message logged for a generic (non-rate-limit) provider
failure (lines 245-246 of `translate.ts`). -/
def genericErrorMessage (targetLang : String) (key : Option String)
    (msg : String) : String :=
  let keyInfo := match key with
    | some k => " for key \"" ++ k ++ "\""
    | none => ""
  "Could not translate to \"" ++ targetLang ++ "\"" ++ keyInfo ++ ": " ++ msg
    ++ ". The UI can display the original text or key name as fallback."

/-- The error message logged for blank source text (lines 136-137). -/
def emptyTextMessage (targetLang : String) (key : Option String) : String :=
  let keyInfo := match key with
    | some k => " for key \"" ++ k ++ "\""
    | none => ""
  "Could not translate to \"" ++ targetLang ++ "\"" ++ keyInfo
    ++ ": Empty source text. Consider providing default text or the UI can display the key name as fallback."

/-- The `while (retryCount <= maxRetries)` loop of `translateText`
(lines 164-250).  `fuel` is the number of loop iterations still allowed
(`maxRetries + 1 - retryCount`); the `fuel = 0` branch is the
"Should not reach here" fallback `return text` at line 253. -/
def translateAttempt (provider : Provider) (text targetLang : String)
    (key : Option String) : Nat → Nat → World → TransResult × World
  | _, 0, w => (.ok text, w)
  | retryCount, fuel + 1, w =>
    let outcome := provider w.providerCalls text targetLang
    let w := { w with providerCalls := w.providerCalls + 1 }
    match outcome with
    | .ok translated =>
      (.ok translated,
        { w with cache := cacheSet w.cache targetLang text translated })
    | .rateLimited retryAfter =>
      if shouldRetry retryCount w.rateLimitMaxWaitTime retryAfter then
        let waitTime := retryAfter.getD 0 + 1
        translateAttempt provider text targetLang key (retryCount + 1) fuel
          { w with waits := w.waits ++ [waitTime] }
      else
        (.skipped targetLang retryAfter,
          { w with
              isRateLimited := true
              rateLimitRetryAfter := retryAfter
              translationsSkippedDueToRateLimit := true })
    | .failure msg =>
      (.ok text,
        { w with errors := w.errors ++ [genericErrorMessage targetLang key msg] })

/-- `translateText(text, targetLang, key?)` of `src/translate.ts`
(lines 125-254): English short-circuit, blank-text short-circuit, cache
lookup, throttle short-circuit, then the provider loop with the bounded
single retry. -/
def translateText (provider : Provider) (text targetLang : String)
    (key : Option String) (w : World) : TransResult × World :=
  if targetLang = "en" then
    (.ok text, w)
  else if isBlank text then
    (.ok text, { w with errors := w.errors ++ [emptyTextMessage targetLang key] })
  else
    match cacheLookup w.cache targetLang text with
    | some cached => (.ok cached, w)
    | none =>
      if w.isRateLimited then
        (.skipped targetLang w.rateLimitRetryAfter, w)
      else
        translateAttempt provider text targetLang key 0 (maxRetries + 1) w

/-- The deterministic mock text of `TestingTranslator`
(`src/translators/testing-translator.ts`). -/
def mockTranslation (text targetLang : String) : String :=
  "Mock translation of '" ++ text ++ "' to '" ++ targetLang ++ "'"

/-- A provider oracle that always succeeds with the mock text, the
behaviour of the process when the `TESTING` flag is set. -/
def mockProvider : Provider := fun _ text targetLang =>
  .ok (mockTranslation text targetLang)

/-- Payload of a thrown `TranslationSkippedError` as observed by callers:
the target language and the recorded `retryAfter`. -/
abbrev SkipInfo := String × Option Nat

/-- The `for (const [t, base] of Object.entries(baseContent))` loop of
`translateI18nJson` (lines 698-702 of `translate-adapter-handlers.ts`).
A `TranslationSkippedError` thrown by `translateText` is not caught and
aborts the loop. -/
def translateI18nJsonGo (provider : Provider) (lang : String) :
    List (String × String) → Obj → World → (Except SkipInfo Obj) × World
  | [], content, w => (.ok content, w)
  | (t, base) :: rest, content, w =>
    if objTruthy content t then
      translateI18nJsonGo provider lang rest content w
    else
      match translateText provider base lang none w with
      | (.ok translated, w') =>
        translateI18nJsonGo provider lang rest (objSet content t translated) w'
      | (.skipped l ra, w') => (.error (l, ra), w')

/-- `translateI18nJson(content, lang, baseContent)`
(lines 689-706 of `translate-adapter-handlers.ts`). -/
def translateI18nJson (provider : Provider) (content : Obj) (lang : String)
    (baseContent : Obj) (w : World) : (Except SkipInfo Obj) × World :=
  if lang = "en" then (.ok content, w)
  else translateI18nJsonGo provider lang baseContent content w

/-- The `for (const lang of translateLanguages)` loop of
`translateNotExisting` (lines 651-659).  As in `translateI18nJson`, a
thrown `TranslationSkippedError` propagates. -/
def translateNotExistingGo (provider : Provider) (text : String) :
    List String → Obj → World → (Except SkipInfo Obj) × World
  | [], obj, w => (.ok obj, w)
  | lang :: rest, obj, w =>
    if objTruthy obj lang then
      translateNotExistingGo provider text rest obj w
    else
      match translateText provider text lang none w with
      | (.ok translated, w') =>
        translateNotExistingGo provider text rest (objSet obj lang translated) w'
      | (.skipped l ra, w') => (.error (l, ra), w')

/-- `translateNotExisting(obj, baseText?)`
(lines 644-661 of `translate-adapter-handlers.ts`):
`const text = obj.en || baseText; if (text) { ... }`. -/
def translateNotExisting (provider : Provider) (translateLanguages : List String)
    (obj : Obj) (baseText : Option String) (w : World) :
    (Except SkipInfo Obj) × World :=
  let text : Option String :=
    match objGet obj "en" with
    | some s => if s ≠ "" then some s else baseText
    | none => baseText
  match text with
  | some t =>
    if t ≠ "" then translateNotExistingGo provider t translateLanguages obj w
    else (.ok obj, w)
  | none => (.ok obj, w)

/-- The loop of `translateI18n` over the existing language files
(lines 668-678): the `en` file is skipped (left on disk unchanged), every
other file is updated through `translateI18nJson` and written back.  The
result is the resulting on-disk content of those files. -/
def translateI18nFiles (provider : Provider) (baseContent : Obj) :
    List (String × Obj) → World → (Except SkipInfo (List (String × Obj))) × World
  | [], w => (.ok [], w)
  | (lang, content) :: rest, w =>
    if lang = "en" then
      match translateI18nFiles provider baseContent rest w with
      | (.ok out, w') => (.ok ((lang, content) :: out), w')
      | (.error i, w') => (.error i, w')
    else
      match translateI18nJson provider content lang baseContent w with
      | (.ok content', w') =>
        match translateI18nFiles provider baseContent rest w' with
        | (.ok out, w'') => (.ok ((lang, content') :: out), w'')
        | (.error i, w'') => (.error i, w'')
      | (.error i, w') => (.error i, w')

/-- The `missingLanguages` set of `translateI18n` (lines 666-672): the
selected languages with no existing file, in selection order (JavaScript
`Set` iteration order is insertion order). -/
def missingLanguagesOf (translateLanguages : List String)
    (files : List (String × Obj)) : List String :=
  translateLanguages.filter (fun l => ¬ files.any (fun f => f.1 = l))

/-- The creation loop of `translateI18n` (lines 679-686): each missing
language gets a catalog synthesized from an empty object. -/
def translateI18nMissing (provider : Provider) (baseContent : Obj) :
    List String → World → (Except SkipInfo (List (String × Obj))) × World
  | [], w => (.ok [], w)
  | lang :: rest, w =>
    match translateI18nJson provider [] lang baseContent w with
    | (.ok content, w') =>
      match translateI18nMissing provider baseContent rest w' with
      | (.ok out, w'') => (.ok ((lang, content) :: out), w'')
      | (.error i, w'') => (.error i, w'')
    | (.error i, w') => (.error i, w')

/-- `translateI18n(baseFile)` (lines 663-687) at the data level: `files`
are the existing per-language catalogs found by `findAllLanguageFiles`
(already restricted to the selected languages), the result is the on-disk
catalog state after the run (updated files followed by created files). -/
def translateI18n (provider : Provider) (translateLanguages : List String)
    (baseContent : Obj) (files : List (String × Obj)) (w : World) :
    (Except SkipInfo (List (String × Obj))) × World :=
  match translateI18nFiles provider baseContent files w with
  | (.ok updated, w') =>
    match translateI18nMissing provider baseContent
        (missingLanguagesOf translateLanguages files) w' with
    | (.ok created, w'') => (.ok (updated ++ created), w'')
    | (.error i, w'') => (.error i, w'')
  | (.error i, w') => (.error i, w')

/-- The `translate` command restricted to one base file's catalogs.  The
CLI (`src/translate-adapter.ts`) accepts a `rebuild` boolean option, but
`parseOptions` does not read it and the handlers never receive it, so the
flag does not influence the computation. -/
def handleTranslateCatalogs (rebuild : Bool) (provider : Provider)
    (translateLanguages : List String) (baseContent : Obj)
    (files : List (String × Obj)) (w : World) :
    (Except SkipInfo (List (String × Obj))) × World :=
  let _ := rebuild
  translateI18n provider translateLanguages baseContent files w

/-- A legacy dictionary / `newWords` value: word ↦ (language ↦ text),
in JavaScript property order. -/
abbrev Dict := List (String × Obj)

/-- Read `d[k]` for an object whose values are objects. -/
def dictGet (d : Dict) (k : String) : Option Obj := jsGet d k

/-- Write `d[k] = v` with JavaScript property-write semantics. -/
def dictSet (d : Dict) (k : String) (v : Obj) : Dict := jsSet d k v

/-- `createEmptyLangObject(createDefault)` (lines 419-426): a record with
exactly the selected languages as keys, in selection order. -/
def createEmptyLangObject (translateLanguages : List String) (d : String) : Obj :=
  translateLanguages.map (fun l => (l, d))

/-- Lexicographic comparison of character lists, the order underlying the
default JavaScript `Array.prototype.sort` on the tool's catalog keys. -/
def lexLe : List Char → List Char → Bool
  | [], _ => true
  | _ :: _, [] => false
  | a :: as, b :: bs =>
    if a < b then true else if b < a then false else lexLe as bs

/-- Lexicographic `≤` on strings. -/
def strLe (a b : String) : Bool := lexLe a.data b.data

/-- Insert a key into an already sorted key list. -/
def insertSorted (x : String) : List String → List String
  | [] => [x]
  | y :: ys => if strLe x y then x :: y :: ys else y :: insertSorted x ys

/-- `keys.sort()` — insertion sort by `strLe`. -/
def sortKeys : List String → List String
  | [] => []
  | x :: xs => insertSorted x (sortKeys xs)

/-- A key list is lexicographically sorted. -/
def sortedKeys : List String → Bool
  | [] => true
  | [_] => true
  | x :: y :: r => strLe x y && sortedKeys (y :: r)

/-- Keys sorted and the object rebuilt in sorted order, the
`keys.sort(); obj[key] = ...` pattern of `adminWords2languages`
(lines 729-734) and of the convert migration (lines 491-497). -/
def sortObj (o : Obj) : Obj :=
  (sortKeys (objKeys o)).map (fun k => (k, (objGet o k).getD ""))

/-- The pre-fill loop of `adminWords2languages` (lines 719-725):
`langs[j][word] = langs[j][word] || ""` for every selected language `j`
(each of which passes the `hasOwnProperty` guard by construction). -/
def prefillWord (translateLanguages : List String) (word : String)
    (langs : Dict) : Dict :=
  translateLanguages.foldl
    (fun ls j =>
      match dictGet ls j with
      | some o =>
        let v := match objGet o word with
          | some s => if s ≠ "" then s else ""
          | none => ""
        dictSet ls j (objSet o word v)
      | none => ls)
    langs

/-- The inner loop of `adminWords2languages` (lines 716-725) over one
word's translations.  `langs[language][word] = translation` throws a
`TypeError` when `language` is not one of the pre-created selected
languages (`langs[language]` is `undefined`); that is the `.error` case. -/
def applyTranslations (translateLanguages : List String) (word : String) :
    List (String × String) → Dict → Except Unit Dict
  | [], langs => .ok langs
  | (lang, translation) :: rest, langs =>
    match dictGet langs lang with
    | none => .error ()
    | some o =>
      let langs := dictSet langs lang (objSet o word translation)
      let langs := prefillWord translateLanguages word langs
      applyTranslations translateLanguages word rest langs

/-- The outer loop of `adminWords2languages` (lines 715-726) over the
parsed `words.js` dictionary. -/
def buildLangs (translateLanguages : List String) :
    List (String × List (String × String)) → Dict → Except Unit Dict
  | [], langs => .ok langs
  | (word, translations) :: rest, langs =>
    match applyTranslations translateLanguages word translations langs with
    | .ok langs' => buildLangs translateLanguages rest langs'
    | .error e => .error e

/-- `adminWords2languages(words, i18nBase)` (lines 708-740) at the data
level: from the parsed dictionary to the per-language catalog files that
are written (one per selected language, keys sorted).  The `.error` case
is the uncaught `TypeError` raised for a language outside the selected
subset. -/
def adminWords2languages (translateLanguages : List String)
    (data : List (String × List (String × String))) :
    Except Unit (List (String × Obj)) :=
  let init : Dict := translateLanguages.map (fun l => (l, ([] : Obj)))
  match buildLangs translateLanguages data init with
  | .ok langs => .ok (langs.map (fun p => (p.1, sortObj p.2)))
  | .error e => .error e

/-- The `for (const key of Object.keys(translations))` loop of
`adminLanguages2words` (lines 762-765) for one language file. -/
def addFileToNewWords (translateLanguages : List String) (lang : String) :
    List (String × String) → Dict → Dict
  | [], nw => nw
  | (key, value) :: rest, nw =>
    let cur := match dictGet nw key with
      | some tr => tr
      | none => createEmptyLangObject translateLanguages ""
    addFileToNewWords translateLanguages lang rest
      (dictSet nw key (objSet cur lang value))

/-- The merge step of `adminLanguages2words` (lines 770-781): keys present
only in the existing `words.js` are kept (with a warning, not modelled). -/
def mergeExisting (existingWords : Dict) (nw : Dict) : Dict :=
  existingWords.foldl
    (fun nw p => if (dictGet nw p.1).isSome then nw else dictSet nw p.1 p.2)
    nw

/-- `adminLanguages2words(i18nBase)` (lines 753-789) at the data level:
`files` are the per-language catalogs found on disk (restricted to the
selected languages by `findAllLanguageFiles`), `existingWords` the parsed
previous `words.js`; the result is the dictionary serialized into the new
`words.js` by `createWordsJs`. -/
def adminLanguages2words (translateLanguages : List String)
    (files : List (String × Obj)) (existingWords : Dict) : Dict :=
  let nw := files.foldl
    (fun nw f => addFileToNewWords translateLanguages f.1 f.2 nw) []
  mergeExisting existingWords nw

/-- The key-sorting rewrite pass of the convert migration
(`convertTranslationJson2LanguageJson`, lines 482-503): every language
file is read, its keys sorted, and written back. -/
def convertSortPass (files : List (String × Obj)) : List (String × Obj) :=
  files.map (fun p => (p.1, sortObj p.2))

/-- A dictionary lookup of both sides of the round-trip property:
the value of `(key, language)` in a dictionary. -/
def dictLookup (d : Dict) (k l : String) : Option String :=
  (dictGet d k).bind (fun tr => objGet tr l)

/-- The value of `x || ""` for a possibly-missing property `x`, as used by
the pre-fill of `adminWords2languages` (`langs[j][word] || ""`). -/
def prefillVal : Option String → String
  | some s => if s ≠ "" then s else ""
  | none => ""

/-- `langs[l][word]` — one cell of the per-language table built by
`adminWords2languages`. -/
def lookupLangs (ls : Dict) (l word : String) : Option String :=
  (dictGet ls l).bind (fun o => objGet o word)

/-- The `l'` entry of `newWords[k] || createEmptyLangObject(...)` — the
value the to-words loop reads for word `k` and language `l'` before it
overwrites the current file's language. -/
def newWordsCell (translateLanguages : List String) (nw : Dict)
    (k l' : String) : Option String :=
  match dictGet nw k with
  | some tr => objGet tr l'
  | none => objGet (createEmptyLangObject translateLanguages "") l'

deriving instance DecidableEq for Except

/-! ## Theorems -/

section JsLemmas

variable {β : Type}

theorem jsGet_jsSet_self (o : List (String × β)) (k : String) (v : β) :
    jsGet (jsSet o k v) k = some v := by
  induction o with
  | nil => simp [jsGet, jsSet]
  | cons p o' ih =>
    by_cases hp : p.1 = k
    · simp [jsGet, jsSet, hp]
    · simp [jsGet, jsSet, hp, ih]

theorem jsGet_jsSet_ne (o : List (String × β)) (k : String) (v : β)
    (k' : String) (h : k' ≠ k) :
    jsGet (jsSet o k v) k' = jsGet o k' := by
  induction o with
  | nil => simp [jsGet, jsSet, Ne.symm h]
  | cons p o' ih =>
    by_cases hp : p.1 = k
    · have hpk' : ¬ p.1 = k' := by rw [hp]; exact Ne.symm h
      simp [jsGet, jsSet, hp, hpk', Ne.symm h]
    · by_cases hp' : p.1 = k'
      · simp [jsGet, jsSet, hp, hp', h]
      · simp [jsGet, jsSet, hp, hp', ih]

theorem jsKeys_jsSet (o : List (String × β)) (k : String) (v : β) :
    jsKeys (jsSet o k v) =
      if k ∈ jsKeys o then jsKeys o else jsKeys o ++ [k] := by
  induction o with
  | nil => simp [jsKeys, jsSet]
  | cons p o' ih =>
    by_cases hp : p.1 = k
    · simp [jsKeys, jsSet, hp]
    · have hkp : k ≠ p.1 := Ne.symm hp
      simp only [jsSet, if_neg hp, jsKeys, List.map_cons]
      rw [show List.map (fun p => p.1) (jsSet o' k v) = jsKeys (jsSet o' k v)
        from rfl, ih]
      simp only [List.mem_cons, hkp, false_or]
      by_cases hm : k ∈ List.map (fun p : String × β => p.1) o' <;>
        simp [jsKeys, hm]

theorem jsGet_isSome_iff (o : List (String × β)) (k : String) :
    (jsGet o k).isSome = true ↔ k ∈ jsKeys o := by
  induction o with
  | nil => simp [jsGet, jsKeys]
  | cons p o' ih =>
    by_cases hp : p.1 = k
    · simp [jsGet, jsKeys, hp]
    · simp [jsGet, jsKeys, hp, Ne.symm hp, ih]

theorem jsSet_eq_self (o : List (String × β)) (k : String) (v : β)
    (hget : jsGet o k = some v) : jsSet o k v = o := by
  induction o with
  | nil => simp [jsGet] at hget
  | cons p o' ih =>
    by_cases hp : p.1 = k
    · simp only [jsGet, if_pos hp, Option.some.injEq] at hget
      simp only [jsSet, if_pos hp]
      rw [← hget, ← hp]
    · simp only [jsGet, if_neg hp] at hget
      simp [jsSet, hp, ih hget]

theorem jsKeys_nodup_jsSet (o : List (String × β)) (k : String) (v : β)
    (hnd : (jsKeys o).Nodup) : (jsKeys (jsSet o k v)).Nodup := by
  rw [jsKeys_jsSet]
  by_cases hm : k ∈ jsKeys o
  · rwa [if_pos hm]
  · rw [if_neg hm]
    simpa [List.nodup_append] using ⟨hnd, hm⟩

end JsLemmas

/-- C1.  For a `translateText` call with `targetLang ≠ "en"`, non-blank
text, no cache hit and the governor not throttled, whose first provider
attempt signals a rate limit with extracted `retryAfter`:
if this first attempt satisfies `rateLimitMaxWaitTime > 0`, `retryAfter`
known and `retryAfter ≤ rateLimitMaxWaitTime`, the call waits
`retryAfter + 1` seconds and retries exactly once — a successful retry
returns its translation, a rate-limited retry throttles the governor,
records the new `retryAfter`, sets the cumulative skip flag and fails with
`TranslationSkipped(targetLang, recorded retryAfter)` without a third
attempt; in every other rate-limited case the governor throttles at once,
records `retryAfter`, sets the skip flag and the call fails with
`TranslationSkipped(targetLang, retryAfter)` after the single attempt. -/
theorem rateLimit_single_retry_policy (provider : Provider)
    (text targetLang : String) (key : Option String) (w : World) (ra : Option Nat)
    (hen : targetLang ≠ "en") (hblank : isBlank text = false)
    (hcache : cacheLookup w.cache targetLang text = none)
    (hopen : w.isRateLimited = false)
    (hfirst : provider w.providerCalls text targetLang = .rateLimited ra) :
    (∀ n, ra = some n → 0 < w.rateLimitMaxWaitTime → n ≤ w.rateLimitMaxWaitTime →
      ((translateText provider text targetLang key w).2.waits = w.waits ++ [n + 1]) ∧
      (∀ tr, provider (w.providerCalls + 1) text targetLang = .ok tr →
        translateText provider text targetLang key w =
          (.ok tr,
            { w with
                providerCalls := w.providerCalls + 2
                waits := w.waits ++ [n + 1]
                cache := cacheSet w.cache targetLang text tr })) ∧
      (∀ ra₂, provider (w.providerCalls + 1) text targetLang = .rateLimited ra₂ →
        translateText provider text targetLang key w =
          (.skipped targetLang ra₂,
            { w with
                providerCalls := w.providerCalls + 2
                waits := w.waits ++ [n + 1]
                isRateLimited := true
                rateLimitRetryAfter := ra₂
                translationsSkippedDueToRateLimit := true }))) ∧
    (shouldRetry 0 w.rateLimitMaxWaitTime ra = false →
      translateText provider text targetLang key w =
        (.skipped targetLang ra,
          { w with
              providerCalls := w.providerCalls + 1
              isRateLimited := true
              rateLimitRetryAfter := ra
              translationsSkippedDueToRateLimit := true })) := by
  constructor
  · intro n hra hpos hle
    subst hra
    have hretry : shouldRetry 0 w.rateLimitMaxWaitTime (some n) = true := by
      simp [shouldRetry, maxRetries, hpos, hle]
    refine ⟨?_, ?_, ?_⟩
    · simp only [translateText, hen, hblank, hcache, hopen, maxRetries,
        translateAttempt, hfirst, hretry]
      cases hsec : provider (w.providerCalls + 1) text targetLang <;>
        simp [translateAttempt, hsec, shouldRetry, maxRetries]
    · intro tr hsec
      simp [translateText, hen, hblank, hcache, hopen, maxRetries,
        translateAttempt, hfirst, hretry, hsec, Option.getD]
    · intro ra₂ hsec
      have : shouldRetry 1 w.rateLimitMaxWaitTime ra₂ = false := by
        simp [shouldRetry, maxRetries]
      simp [translateText, hen, hblank, hcache, hopen, maxRetries,
        translateAttempt, hfirst, hretry, hsec, this, Option.getD]
  · intro hnoretry
    simp [translateText, hen, hblank, hcache, hopen, maxRetries,
      translateAttempt, hfirst, hnoretry]

/-- Witness for `rateLimit_single_retry_policy`: a concrete run whose
first attempt is rate-limited with `retryAfter = 5` under the default
max wait time of 10 and whose retry succeeds. -/
theorem rateLimit_single_retry_policy_witness :
    let provider : Provider := fun n _ _ =>
      if n = 0 then .rateLimited (some 5) else .ok "Zweiter"
    translateText provider "Hello" "de" none World.fresh =
      (.ok "Zweiter",
        { World.fresh with
            providerCalls := 2
            waits := [6]
            cache := [(("de", "Hello"), "Zweiter")] }) := by
  intro provider
  have h := rateLimit_single_retry_policy provider "Hello" "de" none World.fresh
    (some 5) (by decide) (by decide) (by decide) (by decide) (by decide)
  have h2 := (h.1 5 rfl (by decide) (by decide)).2.1 "Zweiter" (by decide)
  simpa [World.fresh] using h2

/-- C2.  While the governor is throttled, a `translateText` call with
`targetLang ≠ "en"` and non-blank text whose `(targetLang, text)` pair is
not cached fails immediately with `TranslationSkipped` and leaves the
state untouched (in particular no provider invocation happens), while a
call whose pair is cached returns the cached translation with the state
untouched whatever the throttle state is. -/
theorem throttled_short_circuit_and_cache_hits (provider : Provider)
    (text targetLang : String) (key : Option String) (w : World)
    (hen : targetLang ≠ "en") (hblank : isBlank text = false) :
    (w.isRateLimited = true → cacheLookup w.cache targetLang text = none →
      translateText provider text targetLang key w =
        (.skipped targetLang w.rateLimitRetryAfter, w)) ∧
    (∀ c, cacheLookup w.cache targetLang text = some c →
      translateText provider text targetLang key w = (.ok c, w)) := by
  constructor
  · intro hthrottled hcache
    simp [translateText, hen, hblank, hcache, hthrottled]
  · intro c hcache
    simp [translateText, hen, hblank, hcache]

/-- Witness for `throttled_short_circuit_and_cache_hits`: a throttled
state with `retryAfter = 60` and a cache holding a German translation of
"Hi"; the uncached text "Hello" is skipped, the cached one is served. -/
theorem throttled_short_circuit_and_cache_hits_witness :
    let w : World := { World.fresh with
      isRateLimited := true
      rateLimitRetryAfter := some 60
      cache := [(("de", "Hi"), "Hallo")] }
    translateText mockProvider "Hello" "de" none w =
      (.skipped "de" (some 60), w) ∧
    translateText mockProvider "Hi" "de" none w = (.ok "Hallo", w) := by
  intro w
  constructor
  · exact (throttled_short_circuit_and_cache_hits mockProvider "Hello" "de"
      none w (by decide) (by decide)).1 rfl (by decide)
  · exact (throttled_short_circuit_and_cache_hits mockProvider "Hi" "de"
      none w (by decide) (by decide)).2 "Hallo" (by decide)

/-- C9.  For a `translateText` call with `targetLang ≠ "en"`, non-blank
text and no cache hit, the cache gains the entry
`(targetLang, text) ↦ translated` exactly when a provider attempt
succeeds (directly or on the single retry), and on every failing path —
throttle short-circuit, rate-limited without retry, rate-limited or
failing retry, generic provider error — the cache is left unchanged. -/
theorem cache_entry_added_iff_provider_success (provider : Provider)
    (text targetLang : String) (key : Option String) (w : World)
    (hen : targetLang ≠ "en") (hblank : isBlank text = false)
    (hcache : cacheLookup w.cache targetLang text = none) :
    (w.isRateLimited = true →
      (translateText provider text targetLang key w).2.cache = w.cache) ∧
    (w.isRateLimited = false →
      (∀ tr, provider w.providerCalls text targetLang = .ok tr →
        (translateText provider text targetLang key w).2.cache =
          cacheSet w.cache targetLang text tr ∧
        (translateText provider text targetLang key w).1 = .ok tr) ∧
      (∀ msg, provider w.providerCalls text targetLang = .failure msg →
        (translateText provider text targetLang key w).2.cache = w.cache) ∧
      (∀ ra, provider w.providerCalls text targetLang = .rateLimited ra →
        (shouldRetry 0 w.rateLimitMaxWaitTime ra = false →
          (translateText provider text targetLang key w).2.cache = w.cache) ∧
        (shouldRetry 0 w.rateLimitMaxWaitTime ra = true →
          (∀ tr, provider (w.providerCalls + 1) text targetLang = .ok tr →
            (translateText provider text targetLang key w).2.cache =
              cacheSet w.cache targetLang text tr ∧
            (translateText provider text targetLang key w).1 = .ok tr) ∧
          (∀ ra₂, provider (w.providerCalls + 1) text targetLang = .rateLimited ra₂ →
            (translateText provider text targetLang key w).2.cache = w.cache) ∧
          (∀ msg, provider (w.providerCalls + 1) text targetLang = .failure msg →
            (translateText provider text targetLang key w).2.cache = w.cache)))) := by
  constructor
  · intro hthrottled
    simp [translateText, hen, hblank, hcache, hthrottled]
  · intro hopen
    refine ⟨?_, ?_, ?_⟩
    · intro tr hfirst
      simp [translateText, hen, hblank, hcache, hopen, maxRetries,
        translateAttempt, hfirst]
    · intro msg hfirst
      simp [translateText, hen, hblank, hcache, hopen, maxRetries,
        translateAttempt, hfirst]
    · intro ra hfirst
      constructor
      · intro hnoretry
        simp [translateText, hen, hblank, hcache, hopen, maxRetries,
          translateAttempt, hfirst, hnoretry]
      · intro hretry
        have hone : shouldRetry 1 w.rateLimitMaxWaitTime = fun _ => false := by
          funext ra₂
          simp [shouldRetry, maxRetries]
        refine ⟨?_, ?_, ?_⟩
        · intro tr hsec
          simp [translateText, hen, hblank, hcache, hopen, maxRetries,
            translateAttempt, hfirst, hretry, hsec]
        · intro ra₂ hsec
          simp [translateText, hen, hblank, hcache, hopen, maxRetries,
            translateAttempt, hfirst, hretry, hsec, hone]
        · intro msg hsec
          simp [translateText, hen, hblank, hcache, hopen, maxRetries,
            translateAttempt, hfirst, hretry, hsec]

/-- Witness for `cache_entry_added_iff_provider_success`: with the mock
provider the fresh world gains exactly the translated entry, and with an
always-failing provider the cache stays empty. -/
theorem cache_entry_added_iff_provider_success_witness :
    ((translateText mockProvider "Hello" "de" none World.fresh).2.cache =
      cacheSet World.fresh.cache "de" "Hello"
        (mockTranslation "Hello" "de")) ∧
    ((translateText (fun _ _ _ => .failure "boom") "Hello" "de" none
        World.fresh).2.cache = World.fresh.cache) := by
  constructor
  · exact ((cache_entry_added_iff_provider_success mockProvider "Hello" "de"
      none World.fresh (by decide) (by decide) (by decide)).2 rfl).1
      (mockTranslation "Hello" "de") rfl |>.1
  · exact ((cache_entry_added_iff_provider_success (fun _ _ _ => .failure "boom")
      "Hello" "de" none World.fresh (by decide) (by decide) (by decide)).2
      rfl).2.1 "boom" rfl

/-- C3 (failing input).  With the governor throttled (retryAfter 60), a
batch over the base `{hello, world}` for German aborts at the first key:
`translateI18nJson` and `translateNotExisting` have no handler for the
`TranslationSkippedError` thrown by `translateText`, so the error
propagates (`Except.error`), the remaining keys and languages are never
processed, and no catalog content is produced — the batch is aborted
instead of continuing with the key left absent. -/
theorem translationSkipped_aborts_batch :
    (translateI18nJson mockProvider [] "de" [("hello", "Hello"), ("world", "World")]
        { World.fresh with isRateLimited := true, rateLimitRetryAfter := some 60 } =
      (.error ("de", some 60),
        { World.fresh with isRateLimited := true, rateLimitRetryAfter := some 60 })) ∧
    (translateNotExisting mockProvider ["de", "fr"] [("en", "Hello")] none
        { World.fresh with isRateLimited := true, rateLimitRetryAfter := some 60 } =
      (.error ("de", some 60),
        { World.fresh with isRateLimited := true, rateLimitRetryAfter := some 60 })) := by
  decide

/-- C8 (failing input).  Running the translate command with
`rebuild = true` on a base `{hello: Hello}` and an existing German
catalog holding the corrupted value `OLD German` leaves the corrupted
value untouched and contacts no provider: the CLI accepts the `--rebuild`
flag but `parseOptions` never reads it, and `translateI18nJson` treats a
key as missing only when its value is absent or falsy. -/
theorem rebuild_flag_ignored :
    handleTranslateCatalogs true mockProvider ["de"] [("hello", "Hello")]
        [("de", [("hello", "OLD German")])] World.fresh =
      (.ok [("de", [("hello", "OLD German")])], World.fresh) := by
  decide

/-- C4 (counterexample).  With a provider that fails generically, catalog
translation of the base `{greeting: Hello}` into German does not leave
the key missing: `translateText` returns the original English text and
`translateI18nJson` stores it, so `Catalog[de].greeting = "Hello"` —
refuting the claimed divergence between the two call sites. -/
theorem generic_error_catalog_stores_english :
    (translateI18nJson (fun _ _ _ => .failure "boom") [] "de"
        [("greeting", "Hello")] World.fresh).1 = .ok [("greeting", "Hello")] ∧
    objGet [("greeting", "Hello")] "greeting" = some "Hello" := by
  decide

/-- C4 (amended).  When a provider attempt fails with a generic
(non-rate-limit) error, `translateText` logs the error and returns the
original English text, and both call sites store it: metadata-field
translation sets `obj[lang]` to the English text, and catalog-file
translation sets `Catalog[lang][k]` to the English text as well. -/
theorem generic_error_logged_and_english_stored (provider : Provider)
    (text targetLang : String) (msg : String) (w : World)
    (hen : targetLang ≠ "en") (hblank : isBlank text = false)
    (hcache : cacheLookup w.cache targetLang text = none)
    (hopen : w.isRateLimited = false)
    (hfail : provider w.providerCalls text targetLang = .failure msg) :
    (translateText provider text targetLang none w =
      (.ok text,
        { w with
            providerCalls := w.providerCalls + 1
            errors := w.errors ++ [genericErrorMessage targetLang none msg] })) ∧
    (∀ content t, objTruthy content t = false →
      (translateI18nJsonGo provider targetLang [(t, text)] content w).1 =
        .ok (objSet content t text)) ∧
    (∀ obj, objGet obj "en" = some text → objTruthy obj targetLang = false →
      (translateNotExisting provider [targetLang] obj none w).1 =
        .ok (objSet obj targetLang text)) := by
  have htrans : translateText provider text targetLang none w =
      (.ok text,
        { w with
            providerCalls := w.providerCalls + 1
            errors := w.errors ++ [genericErrorMessage targetLang none msg] }) := by
    simp [translateText, hen, hblank, hcache, hopen, maxRetries,
      translateAttempt, hfail]
  refine ⟨htrans, ?_, ?_⟩
  · intro content t htruthy
    simp [translateI18nJsonGo, htruthy, htrans]
  · intro obj hobj htruthy
    have htext : text ≠ "" := by
      intro h
      rw [h] at hblank
      simp [isBlank] at hblank
    simp [translateNotExisting, hobj, htext, translateNotExistingGo, htruthy,
      htrans]

/-- Witness for `generic_error_logged_and_english_stored`: a concrete
always-failing provider on the fresh world; both call sites store the
English source text "Hello". -/
theorem generic_error_logged_and_english_stored_witness :
    ((translateI18nJsonGo (fun _ _ _ => .failure "boom") "de"
        [("greeting", "Hello")] [] World.fresh).1 =
      .ok (objSet [] "greeting" "Hello")) ∧
    ((translateNotExisting (fun _ _ _ => .failure "boom") ["de"]
        [("en", "Hello")] none World.fresh).1 =
      .ok (objSet [("en", "Hello")] "de" "Hello")) := by
  have h := generic_error_logged_and_english_stored (fun _ _ _ => .failure "boom")
    "Hello" "de" "boom" World.fresh (by decide) (by decide) (by decide)
    (by decide) rfl
  exact ⟨h.2.1 [] "greeting" (by decide), h.2.2 [("en", "Hello")] rfl (by decide)⟩

/-- C5 (counterexample).  Running the translate command on the base
`{b, a}` (keys not alphabetical) with no existing German catalog writes a
German catalog whose key order is `[b, a]`, the base order — not
lexicographically sorted: the translate-command writers never sort. -/
theorem translate_command_writes_unsorted_catalog :
    (translateI18n mockProvider ["de"] [("b", "B"), ("a", "A")] [] World.fresh).1 =
      .ok [("de", [("b", "Mock translation of 'B' to 'de'"),
                   ("a", "Mock translation of 'A' to 'de'")])] ∧
    objKeys [("b", "Mock translation of 'B' to 'de'"),
             ("a", "Mock translation of 'A' to 'de'")] = ["b", "a"] ∧
    sortedKeys ["b", "a"] = false ∧
    sortKeys ["b", "a"] = ["a", "b"] := by
  decide

theorem lexLe_total (a : List Char) : ∀ b, lexLe a b = true ∨ lexLe b a = true := by
  induction a with
  | nil => intro b; left; rfl
  | cons x xs ih =>
    intro b
    cases b with
    | nil => right; rfl
    | cons y ys =>
      by_cases hxy : x < y
      · left; simp [lexLe, hxy]
      · by_cases hyx : y < x
        · right; simp [lexLe, hyx]
        · have hxy' : x = y := le_antisymm (not_lt.mp hyx) (not_lt.mp hxy)
          subst hxy'
          rcases ih ys with h | h
          · left; simp [lexLe, hxy, h]
          · right; simp [lexLe, hxy, h]

theorem strLe_total (a b : String) : strLe a b = true ∨ strLe b a = true :=
  lexLe_total a.data b.data

theorem sortedKeys_tail {x : String} {l : List String}
    (h : sortedKeys (x :: l) = true) : sortedKeys l = true := by
  cases l with
  | nil => rfl
  | cons y ys => exact (Bool.and_eq_true_iff.mp h).2

theorem sortedKeys_head {x y : String} {l : List String}
    (h : sortedKeys (x :: y :: l) = true) : strLe x y = true :=
  (Bool.and_eq_true_iff.mp h).1

theorem sorted_cons_insertSorted (x : String) :
    ∀ (l : List String) (y : String), strLe y x = true →
      sortedKeys (y :: l) = true →
      sortedKeys (y :: insertSorted x l) = true
  | [], y, hyx, _ => by simp [insertSorted, sortedKeys, hyx]
  | z :: zs, y, hyx, h => by
    have hyz : strLe y z = true := sortedKeys_head h
    have hz : sortedKeys (z :: zs) = true := sortedKeys_tail h
    by_cases hxz : strLe x z = true
    · simp [insertSorted, hxz, sortedKeys, hyx, hz]
    · have hrec := sorted_cons_insertSorted x zs z
        ((strLe_total x z).resolve_left hxz) hz
      simpa [insertSorted, hxz, sortedKeys, hyz] using hrec

theorem sortedKeys_insertSorted (x : String) (l : List String)
    (h : sortedKeys l = true) : sortedKeys (insertSorted x l) = true := by
  cases l with
  | nil => rfl
  | cons y ys =>
    by_cases hxy : strLe x y = true
    · simp [insertSorted, hxy, sortedKeys, h]
    · have hyx : strLe y x = true := (strLe_total x y).resolve_left hxy
      simpa [insertSorted, hxy] using sorted_cons_insertSorted x ys y hyx h

theorem sortedKeys_sortKeys (l : List String) :
    sortedKeys (sortKeys l) = true := by
  induction l with
  | nil => rfl
  | cons x xs ih => exact sortedKeys_insertSorted x (sortKeys xs) ih

theorem sortKeys_of_sorted : ∀ {l : List String}, sortedKeys l = true →
    sortKeys l = l
  | [], _ => rfl
  | x :: xs, h => by
    cases xs with
    | nil => rfl
    | cons y ys =>
      have hxs : sortKeys (y :: ys) = y :: ys :=
        sortKeys_of_sorted (sortedKeys_tail h)
      have hxy := sortedKeys_head h
      show insertSorted x (sortKeys (y :: ys)) = x :: y :: ys
      rw [hxs]
      simp [insertSorted, hxy]

theorem objKeys_sortObj (o : Obj) : objKeys (sortObj o) = sortKeys (objKeys o) := by
  unfold sortObj objKeys jsKeys
  rw [List.map_map]
  exact List.map_id _

/-- C5 (amended).  Every catalog file persisted by the to-json conversion
(`adminWords2languages`) and by the convert migration has its top-level
keys lexicographically sorted — reading the keys in file order gives the
same list as sorting them; files written by the translate command are not
sorted in general (existing key order is preserved and newly translated
keys are appended in base-catalog order). -/
theorem tojson_and_convert_catalogs_sorted (translateLanguages : List String)
    (data : List (String × List (String × String)))
    (out : List (String × Obj)) (files : List (String × Obj))
    (hout : adminWords2languages translateLanguages data = .ok out) :
    (∀ f ∈ out, sortedKeys (objKeys f.2) = true ∧
      sortKeys (objKeys f.2) = objKeys f.2) ∧
    (∀ f ∈ convertSortPass files, sortedKeys (objKeys f.2) = true ∧
      sortKeys (objKeys f.2) = objKeys f.2) := by
  have key : ∀ (o : Obj), sortedKeys (objKeys (sortObj o)) = true ∧
      sortKeys (objKeys (sortObj o)) = objKeys (sortObj o) := by
    intro o
    rw [objKeys_sortObj]
    exact ⟨sortedKeys_sortKeys _, sortKeys_of_sorted (sortedKeys_sortKeys _)⟩
  constructor
  · intro f hf
    simp only [adminWords2languages] at hout
    cases hbuild : buildLangs translateLanguages data
        (translateLanguages.map (fun l => (l, ([] : Obj)))) with
    | error e => simp [hbuild] at hout
    | ok langs =>
      simp only [hbuild, Except.ok.injEq] at hout
      subst hout
      obtain ⟨p, _, hp⟩ := List.mem_map.mp hf
      rw [← hp]
      exact key p.2
  · intro f hf
    obtain ⟨p, _, hp⟩ := List.mem_map.mp hf
    rw [← hp]
    exact key p.2

/-- Witness for `tojson_and_convert_catalogs_sorted`: the to-json output
of a two-word dictionary given in reverse alphabetical order, and a
convert pass over an unsorted German file, both come out sorted. -/
theorem tojson_and_convert_catalogs_sorted_witness :
    (adminWords2languages ["en", "de"]
      [("b", [("en", "B"), ("de", "Bd")]), ("a", [("en", "A"), ("de", "Ad")])] =
      .ok [("en", [("a", "A"), ("b", "B")]), ("de", [("a", "Ad"), ("b", "Bd")])]) ∧
    sortedKeys (objKeys [("a", "A"), ("b", "B")]) = true ∧
    sortedKeys (objKeys [("a", "Ad"), ("b", "Bd")]) = true := by
  have h := tojson_and_convert_catalogs_sorted ["en", "de"]
    [("b", [("en", "B"), ("de", "Bd")]), ("a", [("en", "A"), ("de", "Ad")])]
    [("en", [("a", "A"), ("b", "B")]), ("de", [("a", "Ad"), ("b", "Bd")])]
    [] (by decide)
  exact ⟨by decide,
    (h.1 ("en", [("a", "A"), ("b", "B")]) (by simp)).1,
    (h.1 ("de", [("a", "Ad"), ("b", "Bd")]) (by simp)).1⟩

theorem jsKeys_prefill_foldl (word : String) (v0 : String → Option String → String)
    (js : List String) :
    ∀ langs : Dict,
      jsKeys (js.foldl (fun ls j =>
        match dictGet ls j with
        | some o => dictSet ls j (objSet o word (v0 j (objGet o word)))
        | none => ls) langs) = jsKeys langs := by
  intro langs
  induction js generalizing langs with
  | nil => rfl
  | cons j js ih =>
    rw [List.foldl_cons]
    cases hj : dictGet langs j with
    | none => exact ih langs
    | some o =>
      rw [ih]
      show jsKeys (dictSet langs j (objSet o word (v0 j (objGet o word)))) =
        jsKeys langs
      have hsome : (jsGet langs j).isSome = true := by
        have h : jsGet langs j = some o := hj
        simp [h]
      unfold dictSet
      rw [jsKeys_jsSet, if_pos ((jsGet_isSome_iff langs j).mp hsome)]

theorem jsKeys_prefillWord (translateLanguages : List String) (word : String)
    (langs : Dict) :
    jsKeys (prefillWord translateLanguages word langs) = jsKeys langs := by
  unfold prefillWord
  exact jsKeys_prefill_foldl word
    (fun _ cur => match cur with | some s => if s ≠ "" then s else "" | none => "")
    translateLanguages langs

theorem applyTranslations_keys_ok (translateLanguages : List String)
    (word : String) :
    ∀ (translations : List (String × String)) (langs : Dict),
      (∀ l, l ∈ jsKeys langs ↔ l ∈ translateLanguages) →
      (∀ p ∈ translations, p.1 ∈ translateLanguages) →
      ∃ langs', applyTranslations translateLanguages word translations langs =
          .ok langs' ∧
        (∀ l, l ∈ jsKeys langs' ↔ l ∈ translateLanguages)
  | [], langs, hkeys, _ => ⟨langs, rfl, hkeys⟩
  | (l0, t0) :: rest, langs, hkeys, hgood => by
    have hl0 : l0 ∈ translateLanguages := hgood (l0, t0) (by simp)
    have hsome : (dictGet langs l0).isSome = true :=
      (jsGet_isSome_iff langs l0).mpr ((hkeys l0).mpr hl0)
    obtain ⟨o, ho⟩ := Option.isSome_iff_exists.mp hsome
    have hkeys' : ∀ l,
        l ∈ jsKeys (prefillWord translateLanguages word
          (dictSet langs l0 (objSet o word t0))) ↔ l ∈ translateLanguages := by
      intro l
      rw [jsKeys_prefillWord]
      unfold dictSet
      rw [jsKeys_jsSet, if_pos ((jsGet_isSome_iff langs l0).mp hsome)]
      exact hkeys l
    obtain ⟨langs', hl', hk'⟩ := applyTranslations_keys_ok translateLanguages
      word rest (prefillWord translateLanguages word
        (dictSet langs l0 (objSet o word t0)))
      hkeys' (fun p hp => hgood p (List.mem_cons_of_mem _ hp))
    exact ⟨langs', by simp only [applyTranslations, ho]; exact hl', hk'⟩

theorem applyTranslations_error_of_bad (translateLanguages : List String)
    (word : String) :
    ∀ (translations : List (String × String)) (langs : Dict),
      (∀ l, l ∈ jsKeys langs ↔ l ∈ translateLanguages) →
      (∃ p ∈ translations, p.1 ∉ translateLanguages) →
      applyTranslations translateLanguages word translations langs = .error ()
  | [], _, _, hbad => by simp at hbad
  | (l0, t0) :: rest, langs, hkeys, hbad => by
    by_cases hl0 : l0 ∈ translateLanguages
    · have hsome : (dictGet langs l0).isSome = true :=
        (jsGet_isSome_iff langs l0).mpr ((hkeys l0).mpr hl0)
      obtain ⟨o, ho⟩ := Option.isSome_iff_exists.mp hsome
      have hkeys' : ∀ l,
          l ∈ jsKeys (prefillWord translateLanguages word
            (dictSet langs l0 (objSet o word t0))) ↔ l ∈ translateLanguages := by
        intro l
        rw [jsKeys_prefillWord]
        unfold dictSet
        rw [jsKeys_jsSet, if_pos ((jsGet_isSome_iff langs l0).mp hsome)]
        exact hkeys l
      have hbad' : ∃ p ∈ rest, p.1 ∉ translateLanguages := by
        obtain ⟨p, hp, hpbad⟩ := hbad
        rcases List.mem_cons.mp hp with h | h
        · rw [h] at hpbad
          exact absurd hl0 hpbad
        · exact ⟨p, h, hpbad⟩
      have := applyTranslations_error_of_bad translateLanguages word rest
        (prefillWord translateLanguages word
          (dictSet langs l0 (objSet o word t0))) hkeys' hbad'
      simpa only [applyTranslations, ho] using this
    · have hnone : dictGet langs l0 = none := by
        cases hd : dictGet langs l0 with
        | none => rfl
        | some o =>
          have h : jsGet langs l0 = some o := hd
          exact absurd ((hkeys l0).mp ((jsGet_isSome_iff langs l0).mp
            (by simp [h]))) hl0
      simp only [applyTranslations, hnone]

theorem buildLangs_error_of_bad (translateLanguages : List String) :
    ∀ (data : List (String × List (String × String))) (langs : Dict),
      (∀ l, l ∈ jsKeys langs ↔ l ∈ translateLanguages) →
      (∃ w ∈ data, ∃ p ∈ w.2, p.1 ∉ translateLanguages) →
      buildLangs translateLanguages data langs = .error ()
  | [], _, _, hbad => by simp at hbad
  | (word, translations) :: rest, langs, hkeys, hbad => by
    by_cases hb : ∃ p ∈ translations, p.1 ∉ translateLanguages
    · have := applyTranslations_error_of_bad translateLanguages word
        translations langs hkeys hb
      simp only [buildLangs, this]
    · push_neg at hb
      obtain ⟨langs', hl', hk'⟩ := applyTranslations_keys_ok translateLanguages
        word translations langs hkeys hb
      have hbad' : ∃ w ∈ rest, ∃ p ∈ w.2, p.1 ∉ translateLanguages := by
        obtain ⟨w, hw, p, hp, hpbad⟩ := hbad
        rcases List.mem_cons.mp hw with h | h
        · rw [h] at hp
          exact absurd (hb p hp) hpbad
        · exact ⟨w, h, p, hp, hpbad⟩
      have := buildLangs_error_of_bad translateLanguages rest langs' hk' hbad'
      simp only [buildLangs, hl', this]

/-- C10.  The to-json conversion pre-creates per-language maps only for
the selected languages; if the parsed `words.js` dictionary contains a
translation entry for any language outside that subset, the conversion
throws (the write into the undefined per-language map) instead of
ignoring or preserving that entry. -/
theorem tojson_throws_on_unselected_language (translateLanguages : List String)
    (data : List (String × List (String × String)))
    (word : String) (translations : List (String × String))
    (lang v : String)
    (hw : (word, translations) ∈ data) (hl : (lang, v) ∈ translations)
    (hnot : lang ∉ translateLanguages) :
    adminWords2languages translateLanguages data = .error () := by
  have hkeys : ∀ l,
      l ∈ jsKeys (translateLanguages.map (fun l => (l, ([] : Obj)))) ↔
        l ∈ translateLanguages := by
    intro l
    unfold jsKeys
    rw [List.map_map]
    rw [show List.map ((fun p : String × Obj => p.1) ∘ fun l => (l, ([] : Obj)))
      translateLanguages = List.map id translateLanguages from rfl]
    rw [List.map_id]
  have := buildLangs_error_of_bad translateLanguages data
    (translateLanguages.map (fun l => (l, ([] : Obj)))) hkeys
    ⟨(word, translations), hw, (lang, v), hl, hnot⟩
  simp only [adminWords2languages, this]

/-- Witness for `tojson_throws_on_unselected_language`: converting a
dictionary holding a German entry while only English is selected throws. -/
theorem tojson_throws_on_unselected_language_witness :
    adminWords2languages ["en"] [("greeting", [("de", "Hallo")])] = .error () :=
  tojson_throws_on_unselected_language ["en"]
    [("greeting", [("de", "Hallo")])] "greeting" [("de", "Hallo")] "de" "Hallo"
    (by simp) (by simp) (by decide)

theorem cacheLookup_mem (cache : List ((String × String) × String))
    (targetLang text c : String)
    (h : cacheLookup cache targetLang text = some c) :
    ∃ e ∈ cache, e.2 = c := by
  induction cache with
  | nil => simp [cacheLookup] at h
  | cons e cache ih =>
    by_cases he : e.1 = (targetLang, text)
    · simp only [cacheLookup, if_pos he, Option.some.injEq] at h
      exact ⟨e, by simp, h⟩
    · simp only [cacheLookup, if_neg he] at h
      obtain ⟨e', he', hc⟩ := ih h
      exact ⟨e', by simp [he'], hc⟩

theorem translateText_ok_nonempty (provider : Provider)
    (text targetLang : String) (key : Option String) (w : World)
    (hprov : ∀ n t l, ∃ s, provider n t l = .ok s ∧ s ≠ "")
    (hopen : w.isRateLimited = false)
    (hcne : ∀ e ∈ w.cache, e.2 ≠ "") :
    ∃ s w', translateText provider text targetLang key w = (.ok s, w') ∧
      w'.isRateLimited = false ∧ (∀ e ∈ w'.cache, e.2 ≠ "") ∧
      (s = "" → text = "") := by
  unfold translateText
  by_cases hen : targetLang = "en"
  · exact ⟨text, w, by simp [hen], hopen, hcne, fun h => h⟩
  · by_cases hblank : isBlank text = true
    · exact ⟨text,
        { w with errors := w.errors ++ [emptyTextMessage targetLang key] },
        by simp [hen, hblank], hopen, hcne, fun h => h⟩
    · rw [if_neg hen, if_neg (by simpa using hblank)]
      cases hc : cacheLookup w.cache targetLang text with
      | some c =>
        obtain ⟨e, he, hec⟩ := cacheLookup_mem _ _ _ _ hc
        exact ⟨c, w, by simp, hopen, hcne,
          fun h => absurd (hec.trans h) (hcne e he)⟩
      | none =>
        obtain ⟨s, hs, hsne⟩ := hprov w.providerCalls text targetLang
        refine ⟨s,
          { w with
              providerCalls := w.providerCalls + 1
              cache := cacheSet w.cache targetLang text s },
          ?_, hopen, ?_, fun h => absurd h hsne⟩
        · simp [hopen, maxRetries, translateAttempt, hs]
        · intro e he
          simp only [cacheSet, List.mem_cons] at he
          rcases he with he | he
          · simpa [he] using hsne
          · exact hcne e he

theorem translateI18nJsonGo_run1 (provider : Provider) (lang : String)
    (hprov : ∀ n t l, ∃ s, provider n t l = .ok s ∧ s ≠ "") :
    ∀ (base : List (String × String)) (content : Obj) (w : World),
      w.isRateLimited = false → (∀ e ∈ w.cache, e.2 ≠ "") →
      ∃ content' w',
        translateI18nJsonGo provider lang base content w = (.ok content', w') ∧
        w'.isRateLimited = false ∧ (∀ e ∈ w'.cache, e.2 ≠ "") ∧
        (∀ t₀ (P : Prop),
          (∃ v, objGet content t₀ = some v ∧ (v = "" → P)) →
          (∃ v, objGet content' t₀ = some v ∧ (v = "" → P))) ∧
        (∀ t b, (t, b) ∈ base →
          ∃ v, objGet content' t = some v ∧ (v = "" → b = ""))
  | [], content, w, hopen, hcne =>
    ⟨content, w, rfl, hopen, hcne, fun _ _ h => h, by simp⟩
  | (t, b) :: rest, content, w, hopen, hcne => by
    by_cases htr : objTruthy content t = true
    · obtain ⟨content', w', hres, hopen', hcne', htrans, hinv⟩ :=
        translateI18nJsonGo_run1 provider lang hprov rest content w hopen hcne
      refine ⟨content', w', ?_, hopen', hcne', htrans, ?_⟩
      · simp only [translateI18nJsonGo, htr, if_true]
        exact hres
      · intro t' b' hmem
        rcases List.mem_cons.mp hmem with h | h
        · rw [Prod.mk.injEq] at h
          obtain ⟨ht', hb'⟩ := h
          subst ht'
          apply htrans
          unfold objTruthy at htr
          cases hg : objGet content t' with
          | none => rw [hg] at htr; simp at htr
          | some v =>
            rw [hg] at htr
            have hvne : v ≠ "" := by simpa using htr
            exact ⟨v, rfl, fun hv => absurd hv hvne⟩
        · exact hinv t' b' h
    · obtain ⟨s, w1, htt, hopen1, hcne1, hs⟩ := translateText_ok_nonempty
        provider b lang none w hprov hopen hcne
      obtain ⟨content', w', hres, hopen', hcne', htrans, hinv⟩ :=
        translateI18nJsonGo_run1 provider lang hprov rest
          (objSet content t s) w1 hopen1 hcne1
      have htrans1 : ∀ t₀ (P : Prop),
          (∃ v, objGet content t₀ = some v ∧ (v = "" → P)) →
          (∃ v, objGet (objSet content t s) t₀ = some v ∧ (v = "" → P)) := by
        intro t₀ P ⟨v, hv, hP⟩
        by_cases ht₀ : t₀ = t
        · subst ht₀
          have hv0 : v = "" := by
            unfold objTruthy at htr
            rw [hv] at htr
            by_contra hne
            exact htr (by simpa using hne)
          exact ⟨s, jsGet_jsSet_self content t₀ s, fun _ => hP hv0⟩
        · exact ⟨v, (jsGet_jsSet_ne content t s t₀ ht₀).trans hv, hP⟩
      refine ⟨content', w', ?_, hopen', hcne', fun t₀ P h =>
        htrans t₀ P (htrans1 t₀ P h), ?_⟩
      · simp only [translateI18nJsonGo, htr, if_false, htt]
        exact hres
      · intro t' b' hmem
        rcases List.mem_cons.mp hmem with h | h
        · rw [Prod.mk.injEq] at h
          obtain ⟨ht', hb'⟩ := h
          subst ht'; subst hb'
          exact htrans t' _ ⟨s, jsGet_jsSet_self content t' s, hs⟩
        · exact hinv t' b' h

theorem translateText_blank_eval (provider : Provider) (lang : String)
    (key : Option String) (w : World) :
    ∃ w', translateText provider "" lang key w = (.ok "", w') ∧
      w'.providerCalls = w.providerCalls ∧ w'.cache = w.cache := by
  by_cases hen : lang = "en"
  · exact ⟨w, by simp [translateText, hen], rfl, rfl⟩
  · exact ⟨{ w with errors := w.errors ++ [emptyTextMessage lang key] },
      by simp [translateText, hen, isBlank], rfl, rfl⟩

theorem translateI18nJsonGo_stable (provider : Provider) (lang : String) :
    ∀ (base : List (String × String)) (content : Obj) (w : World),
      (∀ t b, (t, b) ∈ base →
        ∃ v, objGet content t = some v ∧ (v = "" → b = "")) →
      ∃ w', translateI18nJsonGo provider lang base content w = (.ok content, w') ∧
        w'.providerCalls = w.providerCalls ∧ w'.cache = w.cache
  | [], _, w, _ => ⟨w, rfl, rfl, rfl⟩
  | (t, b) :: rest, content, w, hinv => by
    obtain ⟨v, hv, himp⟩ := hinv t b (by simp)
    by_cases hv0 : v = ""
    · have hb : b = "" := himp hv0
      have htr : objTruthy content t = false := by
        unfold objTruthy; rw [hv]; simp [hv0]
      obtain ⟨w1, htt, hpc1, hcache1⟩ := translateText_blank_eval provider lang
        none w
      obtain ⟨w', hres, hpc2, hcache2⟩ := translateI18nJsonGo_stable provider
        lang rest content w1
        (fun t' b' h' => hinv t' b' (List.mem_cons_of_mem _ h'))
      have hset : objSet content t "" = content :=
        jsSet_eq_self content t "" (hv0 ▸ hv)
      refine ⟨w', ?_, hpc2.trans hpc1, hcache2.trans hcache1⟩
      rw [show translateI18nJsonGo provider lang ((t, b) :: rest) content w =
        translateI18nJsonGo provider lang rest (objSet content t "") w1 from ?_]
      · rw [hset]; exact hres
      · simp only [translateI18nJsonGo, htr, Bool.false_eq_true, if_false,
          hb, htt]
    · have htr : objTruthy content t = true := by
        unfold objTruthy; rw [hv]; simp [hv0]
      obtain ⟨w', hres, hpc, hcache⟩ := translateI18nJsonGo_stable provider
        lang rest content w
        (fun t' b' h' => hinv t' b' (List.mem_cons_of_mem _ h'))
      refine ⟨w', ?_, hpc, hcache⟩
      simp only [translateI18nJsonGo, htr, if_true]
      exact hres

theorem any_fst_eq_true_iff {β : Type} (o : List (String × β)) (k : String) :
    (o.any (fun p => p.1 = k)) = true ↔ k ∈ o.map Prod.fst := by
  induction o with
  | nil => simp
  | cons p o' ih =>
    by_cases hp : p.1 = k
    · simp [hp]
    · simp [hp, ih, Ne.symm hp]

theorem translateI18nFiles_run1 (provider : Provider) (base : Obj)
    (hprov : ∀ n t l, ∃ s, provider n t l = .ok s ∧ s ≠ "") :
    ∀ (files : List (String × Obj)) (w : World),
      w.isRateLimited = false → (∀ e ∈ w.cache, e.2 ≠ "") →
      ∃ files1 w1, translateI18nFiles provider base files w = (.ok files1, w1) ∧
        w1.isRateLimited = false ∧ (∀ e ∈ w1.cache, e.2 ≠ "") ∧
        files1.map Prod.fst = files.map Prod.fst ∧
        (∀ f ∈ files1, f.1 ≠ "en" → ∀ t b, (t, b) ∈ base →
          ∃ v, objGet f.2 t = some v ∧ (v = "" → b = ""))
  | [], w, hopen, hcne => ⟨[], w, rfl, hopen, hcne, rfl, by simp⟩
  | (lang, content) :: rest, w, hopen, hcne => by
    by_cases hen : lang = "en"
    · obtain ⟨files1, w1, hres, hopen1, hcne1, hmap, hinv⟩ :=
        translateI18nFiles_run1 provider base hprov rest w hopen hcne
      refine ⟨(lang, content) :: files1, w1, ?_, hopen1, hcne1,
        by simp [hmap], ?_⟩
      · simp only [translateI18nFiles, hen, if_true, hres]
      · intro f hf hfen t b hb
        rcases List.mem_cons.mp hf with h | h
        · rw [h] at hfen; exact absurd hen hfen
        · exact hinv f h hfen t b hb
    · obtain ⟨content', w1, hgo, hopen1, hcne1, _, hinv5⟩ :=
        translateI18nJsonGo_run1 provider lang hprov base content w hopen hcne
      obtain ⟨files1, w2, hres, hopen2, hcne2, hmap, hinvr⟩ :=
        translateI18nFiles_run1 provider base hprov rest w1 hopen1 hcne1
      refine ⟨(lang, content') :: files1, w2, ?_, hopen2, hcne2,
        by simp [hmap], ?_⟩
      · simp only [translateI18nFiles, hen, if_false, translateI18nJson, hgo,
          hres]
      · intro f hf hfen t b hb
        rcases List.mem_cons.mp hf with h | h
        · rw [h]
          exact hinv5 t b hb
        · exact hinvr f h hfen t b hb

theorem translateI18nMissing_run1 (provider : Provider) (base : Obj)
    (hprov : ∀ n t l, ∃ s, provider n t l = .ok s ∧ s ≠ "") :
    ∀ (langs : List String) (w : World),
      w.isRateLimited = false → (∀ e ∈ w.cache, e.2 ≠ "") →
      ∃ created w1,
        translateI18nMissing provider base langs w = (.ok created, w1) ∧
        w1.isRateLimited = false ∧ (∀ e ∈ w1.cache, e.2 ≠ "") ∧
        created.map Prod.fst = langs ∧
        (∀ f ∈ created, f.1 ≠ "en" → ∀ t b, (t, b) ∈ base →
          ∃ v, objGet f.2 t = some v ∧ (v = "" → b = ""))
  | [], w, hopen, hcne => ⟨[], w, rfl, hopen, hcne, rfl, by simp⟩
  | lang :: langs, w, hopen, hcne => by
    by_cases hen : lang = "en"
    · obtain ⟨created, w1, hres, hopen1, hcne1, hmap, hinv⟩ :=
        translateI18nMissing_run1 provider base hprov langs w hopen hcne
      refine ⟨(lang, ([] : Obj)) :: created, w1, ?_, hopen1, hcne1,
        by simp [hmap], ?_⟩
      · simp only [translateI18nMissing, translateI18nJson, hen, if_true, hres]
      · intro f hf hfen t b hb
        rcases List.mem_cons.mp hf with h | h
        · rw [h] at hfen; exact absurd hen hfen
        · exact hinv f h hfen t b hb
    · obtain ⟨content', w1, hgo, hopen1, hcne1, _, hinv5⟩ :=
        translateI18nJsonGo_run1 provider lang hprov base [] w hopen hcne
      obtain ⟨created, w2, hres, hopen2, hcne2, hmap, hinvr⟩ :=
        translateI18nMissing_run1 provider base hprov langs w1 hopen1 hcne1
      refine ⟨(lang, content') :: created, w2, ?_, hopen2, hcne2,
        by simp [hmap], ?_⟩
      · simp only [translateI18nMissing, translateI18nJson, hen, if_false, hgo,
          hres]
      · intro f hf hfen t b hb
        rcases List.mem_cons.mp hf with h | h
        · rw [h]
          exact hinv5 t b hb
        · exact hinvr f h hfen t b hb

theorem translateI18nFiles_stable (provider : Provider) (base : Obj) :
    ∀ (files : List (String × Obj)) (w : World),
      (∀ f ∈ files, f.1 ≠ "en" → ∀ t b, (t, b) ∈ base →
        ∃ v, objGet f.2 t = some v ∧ (v = "" → b = "")) →
      ∃ w', translateI18nFiles provider base files w = (.ok files, w') ∧
        w'.providerCalls = w.providerCalls ∧ w'.cache = w.cache
  | [], w, _ => ⟨w, rfl, rfl, rfl⟩
  | (lang, content) :: rest, w, hinv => by
    by_cases hen : lang = "en"
    · obtain ⟨w', hres, hpc, hcache⟩ := translateI18nFiles_stable provider base
        rest w (fun f hf => hinv f (List.mem_cons_of_mem _ hf))
      refine ⟨w', ?_, hpc, hcache⟩
      simp only [translateI18nFiles, hen, if_true, hres]
    · obtain ⟨w1, hgo, hpc1, hcache1⟩ := translateI18nJsonGo_stable provider
        lang base content w
        (hinv (lang, content) (by simp) (by simpa using hen))
      obtain ⟨w', hres, hpc2, hcache2⟩ := translateI18nFiles_stable provider
        base rest w1 (fun f hf => hinv f (List.mem_cons_of_mem _ hf))
      refine ⟨w', ?_, hpc2.trans hpc1, hcache2.trans hcache1⟩
      simp only [translateI18nFiles, hen, if_false, translateI18nJson, hgo,
        hres]

/-- C6 (counterexample).  For the base catalog `{k: ""}` (a blank source
text), the first translate run writes the German catalog `{k: ""}` whose
only key has no truthy value — yet the second run still writes the
byte-identical catalog and issues zero provider invocations.  This
refutes the claim's asserted reason that the second run is silent
*because every base key already has a truthy value in every target
catalog*. -/
theorem idempotent_but_blank_key_not_truthy :
    (translateI18n mockProvider ["de"] [("k", "")] [] World.fresh).1 =
      .ok [("de", [("k", "")])] ∧
    objTruthy [("k", "")] "k" = false ∧
    (translateI18n mockProvider ["de"] [("k", "")] [("de", [("k", "")])]
        World.fresh).1 = .ok [("de", [("k", "")])] ∧
    (translateI18n mockProvider ["de"] [("k", "")] [("de", [("k", "")])]
        World.fresh).2.providerCalls = 0 := by
  decide

/-- C6 (amended).  With a provider whose calls all succeed with non-empty
translations and a first run started in an unthrottled state with only
non-empty cached values, the translate run over any base catalog and any
existing target catalogs completes, and a second run over the written
catalogs — from any state and with any provider — writes byte-identical
catalog contents and issues no provider invocation: after the first run
every base key of every non-English target catalog is present, with a
value that is empty only when the source text itself is the empty string
(such keys are re-answered by the blank-text short-circuit, not by the
provider). -/
theorem translate_twice_idempotent (provider provider₂ : Provider)
    (translateLanguages : List String) (base : Obj)
    (files : List (String × Obj)) (w₀ w₂ : World)
    (hprov : ∀ n t l, ∃ s, provider n t l = .ok s ∧ s ≠ "")
    (hopen : w₀.isRateLimited = false)
    (hcne : ∀ e ∈ w₀.cache, e.2 ≠ "") :
    ∃ files1 w1,
      translateI18n provider translateLanguages base files w₀ =
        (.ok files1, w1) ∧
      (∃ w2', translateI18n provider₂ translateLanguages base files1 w₂ =
          (.ok files1, w2') ∧
        w2'.providerCalls = w₂.providerCalls ∧ w2'.cache = w₂.cache) ∧
      (∀ f ∈ files1, f.1 ≠ "en" → ∀ t b, (t, b) ∈ base →
        ∃ v, objGet f.2 t = some v ∧ (v = "" → b = "")) := by
  obtain ⟨updated, w1a, hfiles, hopen1, hcne1, hmapa, hinva⟩ :=
    translateI18nFiles_run1 provider base hprov files w₀ hopen hcne
  obtain ⟨created, w1, hmiss, _, _, hmapc, hinvc⟩ :=
    translateI18nMissing_run1 provider base hprov
      (missingLanguagesOf translateLanguages files) w1a hopen1 hcne1
  have hinv1 : ∀ f ∈ updated ++ created, f.1 ≠ "en" → ∀ t b, (t, b) ∈ base →
      ∃ v, objGet f.2 t = some v ∧ (v = "" → b = "") := by
    intro f hf
    rcases List.mem_append.mp hf with h | h
    · exact hinva f h
    · exact hinvc f h
  refine ⟨updated ++ created, w1, ?_, ?_, hinv1⟩
  · simp only [translateI18n, hfiles, hmiss]
  · obtain ⟨w2a, hfiles2, hpc2, hcache2⟩ :=
      translateI18nFiles_stable provider₂ base (updated ++ created) w₂ hinv1
    have hmiss2 :
        missingLanguagesOf translateLanguages (updated ++ created) = [] := by
      unfold missingLanguagesOf
      apply List.filter_eq_nil_iff.mpr
      intro l hl
      have hmem : l ∈ (updated ++ created).map Prod.fst := by
        rw [List.map_append, hmapa, hmapc]
        by_cases hf : l ∈ files.map Prod.fst
        · exact List.mem_append.mpr (.inl hf)
        · refine List.mem_append.mpr (.inr ?_)
          unfold missingLanguagesOf
          rw [List.mem_filter]
          refine ⟨hl, ?_⟩
          have hnot : ∀ (a : String) (b : Obj), (a, b) ∈ files → ¬ a = l := by
            intro a b hab ha
            exact hf (List.mem_map.mpr ⟨(a, b), hab, ha⟩)
          simpa using hnot
      have hany : (updated ++ created).any (fun f => f.1 = l) = true :=
        (any_fst_eq_true_iff _ l).mpr hmem
      simp [hany]
    refine ⟨w2a, ?_, hpc2, hcache2⟩
    simp only [translateI18n, hfiles2, hmiss2, translateI18nMissing,
      List.append_nil]

/-- Witness for `translate_twice_idempotent`: a concrete run with the
constant provider `ok "X"` over the base `{hello: Hello}` into German,
starting twice from the fresh world. -/
theorem translate_twice_idempotent_witness :
    ∃ files1 w1,
      translateI18n (fun _ _ _ => .ok "X") ["de"] [("hello", "Hello")] []
          World.fresh = (.ok files1, w1) ∧
      (∃ w2', translateI18n (fun _ _ _ => .ok "X") ["de"] [("hello", "Hello")]
          files1 World.fresh = (.ok files1, w2') ∧
        w2'.providerCalls = World.fresh.providerCalls ∧
        w2'.cache = World.fresh.cache) ∧
      (∀ f ∈ files1, f.1 ≠ "en" → ∀ t b, (t, b) ∈ [("hello", "Hello")] →
        ∃ v, objGet f.2 t = some v ∧ (v = "" → b = "")) :=
  translate_twice_idempotent (fun _ _ _ => .ok "X") (fun _ _ _ => .ok "X")
    ["de"] [("hello", "Hello")] [] World.fresh World.fresh
    (fun _ _ _ => ⟨"X", rfl, by decide⟩) rfl (by simp [World.fresh])

theorem prefillVal_idem (x : Option String) :
    prefillVal (some (prefillVal x)) = prefillVal x := by
  cases x with
  | none => rfl
  | some s =>
    by_cases hs : s = ""
    · simp [prefillVal, hs]
    · simp [prefillVal, hs]

theorem jsGet_of_mem_nodup {β : Type} :
    ∀ (d : List (String × β)) (p : String × β), (jsKeys d).Nodup → p ∈ d →
      jsGet d p.1 = some p.2
  | [], p, _, hmem => by simp at hmem
  | q :: d, p, hnd, hmem => by
    simp only [jsKeys, List.map_cons, List.nodup_cons] at hnd
    rcases List.mem_cons.mp hmem with h | h
    · rw [h]
      simp [jsGet]
    · have hne : q.1 ≠ p.1 := by
        intro he
        exact hnd.1 (he ▸ List.mem_map.mpr ⟨p, h, rfl⟩)
      simp only [jsGet, if_neg hne]
      exact jsGet_of_mem_nodup d p (by simpa [jsKeys] using hnd.2) h

theorem mem_insertSorted (x k : String) :
    ∀ l, k ∈ insertSorted x l ↔ k = x ∨ k ∈ l
  | [] => by simp [insertSorted]
  | y :: ys => by
    by_cases hxy : strLe x y = true
    · simp [insertSorted, hxy]
    · simp only [insertSorted, if_neg hxy, List.mem_cons,
        mem_insertSorted x k ys]
      tauto

theorem mem_sortKeys (k : String) : ∀ l, k ∈ sortKeys l ↔ k ∈ l
  | [] => Iff.rfl
  | x :: xs => by
    simp only [sortKeys, mem_insertSorted, mem_sortKeys k xs, List.mem_cons]

theorem jsGet_map_fun {β : Type} (f : String → β) (k : String) :
    ∀ ks : List String,
      jsGet (ks.map (fun k' => (k', f k'))) k =
        if k ∈ ks then some (f k) else none
  | [] => rfl
  | k0 :: ks => by
    by_cases hk : k0 = k
    · simp [jsGet, hk]
    · simp only [List.map_cons, jsGet, if_neg hk, jsGet_map_fun f k ks,
        List.mem_cons]
      rw [if_congr (iff_of_eq (congrArg _ rfl)) rfl rfl]
      by_cases hm : k ∈ ks
      · simp [hm]
      · simp [hm, Ne.symm hk]

theorem lookupLangs_dictSet_self (ls : Dict) (j : String) (o : Obj)
    (word : String) :
    lookupLangs (dictSet ls j o) j word = objGet o word := by
  unfold lookupLangs dictSet dictGet
  rw [jsGet_jsSet_self]
  rfl

theorem lookupLangs_dictSet_ne (ls : Dict) (j : String) (o : Obj)
    (l word : String) (h : l ≠ j) :
    lookupLangs (dictSet ls j o) l word = lookupLangs ls l word := by
  unfold lookupLangs dictSet dictGet
  rw [jsGet_jsSet_ne _ _ _ _ h]

theorem prefill_match_eq_prefillVal (o : Obj) (word : String) :
    (match objGet o word with
      | some s => if s ≠ "" then s else ""
      | none => "") = prefillVal (objGet o word) := by
  cases objGet o word <;> rfl

theorem prefillWord_cons (j : String) (js : List String) (word : String)
    (langs : Dict) :
    prefillWord (j :: js) word langs =
      prefillWord js word
        (match dictGet langs j with
          | some o =>
            dictSet langs j (objSet o word (prefillVal (objGet o word)))
          | none => langs) := by
  unfold prefillWord
  rw [List.foldl_cons]
  cases hdg : dictGet langs j with
  | none => rfl
  | some o => rfl

theorem prefillWord_frame (word word' : String) (hne : word' ≠ word) :
    ∀ (js : List String) (langs : Dict) (l : String),
      lookupLangs (prefillWord js word langs) l word' =
        lookupLangs langs l word'
  | [], _, _ => rfl
  | j :: js, langs, l => by
    rw [prefillWord_cons]
    cases hdg : dictGet langs j with
    | none => exact prefillWord_frame word word' hne js langs l
    | some o =>
      rw [prefillWord_frame word word' hne js _ l]
      by_cases hl : l = j
      · subst hl
        rw [lookupLangs_dictSet_self]
        show jsGet (jsSet o word (prefillVal (objGet o word))) word' = _
        rw [jsGet_jsSet_ne _ _ _ _ hne]
        unfold lookupLangs
        rw [hdg]
        rfl
      · exact lookupLangs_dictSet_ne _ _ _ _ _ hl

theorem prefillWord_notmem (word : String) :
    ∀ (js : List String) (langs : Dict) (l : String), l ∉ js →
      lookupLangs (prefillWord js word langs) l word = lookupLangs langs l word
  | [], _, _, _ => rfl
  | j :: js, langs, l, hl => by
    have hlj : l ≠ j := fun h => hl (h ▸ List.mem_cons_self j js)
    have hljs : l ∉ js := fun h => hl (List.mem_cons_of_mem j h)
    rw [prefillWord_cons]
    cases hdg : dictGet langs j with
    | none => exact prefillWord_notmem word js langs l hljs
    | some o =>
      rw [prefillWord_notmem word js _ l hljs]
      exact lookupLangs_dictSet_ne _ _ _ _ _ hlj

theorem prefillWord_mem (word : String) :
    ∀ (js : List String) (langs : Dict) (l : String), l ∈ js →
      (jsGet langs l).isSome = true →
      lookupLangs (prefillWord js word langs) l word =
        some (prefillVal (lookupLangs langs l word))
  | [], _, _, hl, _ => by simp at hl
  | j :: js, langs, l, hl, hsome => by
    rw [prefillWord_cons]
    by_cases hlj : l = j
    · subst hlj
      obtain ⟨o, ho⟩ := Option.isSome_iff_exists.mp hsome
      have hdg : dictGet langs l = some o := ho
      rw [hdg]
      have hcur : lookupLangs langs l word = objGet o word := by
        unfold lookupLangs
        rw [hdg]
        rfl
      have hafter : lookupLangs
          (dictSet langs l (objSet o word (prefillVal (objGet o word)))) l word =
          some (prefillVal (lookupLangs langs l word)) := by
        rw [lookupLangs_dictSet_self]
        unfold objGet objSet
        rw [jsGet_jsSet_self, hcur]
        rfl
      by_cases hljs : l ∈ js
      · rw [prefillWord_mem word js _ l hljs ?_]
        · rw [hafter, prefillVal_idem]
        · unfold dictSet
          rw [show jsGet (jsSet langs l (objSet o word
              (prefillVal (objGet o word)))) l =
            some (objSet o word (prefillVal (objGet o word)))
            from jsGet_jsSet_self ..]
          rfl
      · rw [prefillWord_notmem word js _ l hljs, hafter]
    · have hljs : l ∈ js := by
        rcases List.mem_cons.mp hl with h | h
        · exact absurd h hlj
        · exact h
      cases hdg : dictGet langs j with
      | none => exact prefillWord_mem word js langs l hljs hsome
      | some o =>
        have hsome' : (jsGet (dictSet langs j
            (objSet o word (prefillVal (objGet o word)))) l).isSome = true := by
          unfold dictSet
          rw [jsGet_jsSet_ne _ _ _ _ hlj]
          exact hsome
        rw [prefillWord_mem word js _ l hljs hsome',
          lookupLangs_dictSet_ne _ _ _ _ _ hlj]

theorem prefillVal_some (v : String) : prefillVal (some v) = v := by
  by_cases h : v = "" <;> simp [prefillVal, h]

theorem applyTranslations_char (L : List String) (word : String) :
    ∀ (tr : List (String × String)) (langs : Dict),
      (∀ l ∈ L, (jsGet langs l).isSome = true) →
      (∀ q ∈ tr, q.1 ∈ L) →
      ((tr.map Prod.fst).Nodup) →
      ∃ langs', applyTranslations L word tr langs = .ok langs' ∧
        jsKeys langs' = jsKeys langs ∧
        (∀ l ∈ L, lookupLangs langs' l word =
          (match jsGet tr l with
            | some v => some v
            | none => match tr with
              | [] => lookupLangs langs l word
              | _ :: _ => some (prefillVal (lookupLangs langs l word)))) ∧
        (∀ l word', word' ≠ word →
          lookupLangs langs' l word' = lookupLangs langs l word')
  | [], langs, _, _, _ =>
    ⟨langs, rfl, rfl, fun l _ => rfl, fun _ _ _ => rfl⟩
  | (l0, v0) :: rest, langs, hksome, hsub, hnodup => by
    have hl0 : l0 ∈ L := hsub (l0, v0) (by simp)
    obtain ⟨o, ho⟩ := Option.isSome_iff_exists.mp (hksome l0 hl0)
    have hdg : dictGet langs l0 = some o := ho
    have hl0some : (jsGet langs l0).isSome = true := by simp [ho]
    have keys₁ : jsKeys (dictSet langs l0 (objSet o word v0)) = jsKeys langs := by
      unfold dictSet
      rw [jsKeys_jsSet, if_pos ((jsGet_isSome_iff langs l0).mp hl0some)]
    have keys₂ : jsKeys (prefillWord L word
        (dictSet langs l0 (objSet o word v0))) = jsKeys langs := by
      rw [jsKeys_prefillWord]
      exact keys₁
    have hksome₂ : ∀ l ∈ L, (jsGet (prefillWord L word
        (dictSet langs l0 (objSet o word v0))) l).isSome = true := by
      intro l hl
      rw [jsGet_isSome_iff, keys₂, ← jsGet_isSome_iff]
      exact hksome l hl
    have hksome₁ : ∀ l ∈ L, (jsGet
        (dictSet langs l0 (objSet o word v0)) l).isSome = true := by
      intro l hl
      rw [jsGet_isSome_iff, keys₁, ← jsGet_isSome_iff]
      exact hksome l hl
    have col₁self : lookupLangs (dictSet langs l0 (objSet o word v0)) l0 word =
        some v0 := by
      rw [lookupLangs_dictSet_self]
      unfold objGet objSet
      rw [jsGet_jsSet_self]
    have col₂ : ∀ l ∈ L, lookupLangs (prefillWord L word
        (dictSet langs l0 (objSet o word v0))) l word =
        if l = l0 then some v0
        else some (prefillVal (lookupLangs langs l word)) := by
      intro l hl
      rw [prefillWord_mem word L _ l hl (hksome₁ l hl)]
      by_cases hll0 : l = l0
      · subst hll0
        rw [col₁self, if_pos rfl, prefillVal_some]
      · rw [if_neg hll0, lookupLangs_dictSet_ne _ _ _ _ _ hll0]
    have frame₂ : ∀ l word', word' ≠ word →
        lookupLangs (prefillWord L word
          (dictSet langs l0 (objSet o word v0))) l word' =
        lookupLangs langs l word' := by
      intro l word' hw
      rw [prefillWord_frame word word' hw]
      by_cases hll0 : l = l0
      · subst hll0
        rw [lookupLangs_dictSet_self]
        show jsGet (jsSet o word v0) word' = _
        rw [jsGet_jsSet_ne _ _ _ _ hw]
        unfold lookupLangs
        rw [hdg]
        rfl
      · exact lookupLangs_dictSet_ne _ _ _ _ _ hll0
    have hnodup' : (rest.map Prod.fst).Nodup := by
      simpa using (List.nodup_cons.mp (by simpa using hnodup)).2
    have hl0rest : l0 ∉ rest.map Prod.fst :=
      (List.nodup_cons.mp (by simpa using hnodup)).1
    obtain ⟨langs', hres, hkeys', hcol', hframe'⟩ :=
      applyTranslations_char L word rest
        (prefillWord L word (dictSet langs l0 (objSet o word v0)))
        hksome₂ (fun q hq => hsub q (List.mem_cons_of_mem _ hq)) hnodup'
    refine ⟨langs', ?_, hkeys'.trans keys₂, ?_, ?_⟩
    · simp only [applyTranslations, hdg]
      exact hres
    · intro l hl
      rw [hcol' l hl]
      by_cases hll0 : l = l0
      · subst hll0
        have hnone : jsGet rest l = none := by
          cases hr : jsGet rest l with
          | none => rfl
          | some v =>
            exact absurd ((jsGet_isSome_iff rest l).mp (by simp [hr])) hl0rest
        rw [hnone]
        have hcons : jsGet ((l, v0) :: rest) l = some v0 := by simp [jsGet]
        rw [hcons]
        cases rest with
        | nil => rw [col₂ l hl, if_pos rfl]
        | cons q qs =>
          rw [col₂ l hl, if_pos rfl, prefillVal_some]
      · have hcons : jsGet ((l0, v0) :: rest) l = jsGet rest l := by
          simp [jsGet, Ne.symm hll0]
        rw [hcons]
        cases hr : jsGet rest l with
        | some v => rfl
        | none =>
          cases rest with
          | nil => rw [col₂ l hl, if_neg hll0]
          | cons q qs =>
            rw [col₂ l hl, if_neg hll0, prefillVal_idem]
    · intro l word' hw
      rw [hframe' l word' hw]
      exact frame₂ l word' hw

theorem buildLangs_char (L : List String) :
    ∀ (data : List (String × List (String × String))) (langs : Dict),
      (∀ l ∈ L, (jsGet langs l).isSome = true) →
      (∀ p ∈ data, ∀ l ∈ L, (jsGet p.2 l).isSome = true) →
      (∀ p ∈ data, ∀ q ∈ p.2, q.1 ∈ L) →
      (∀ p ∈ data, (p.2.map Prod.fst).Nodup) →
      ((data.map Prod.fst).Nodup) →
      ∃ langs', buildLangs L data langs = .ok langs' ∧
        jsKeys langs' = jsKeys langs ∧
        (∀ l ∈ L, ∀ word, lookupLangs langs' l word =
          match jsGet data word with
          | some tr => jsGet tr l
          | none => lookupLangs langs l word)
  | [], langs, hksome, _, _, _, _ =>
    ⟨langs, rfl, rfl, fun _ _ _ => rfl⟩
  | (w0, tr0) :: rest, langs, hksome, hdom, hsub, hnoduptr, hnodupD => by
    obtain ⟨langs₁, happ, hkeys₁, hcol₁, hframe₁⟩ :=
      applyTranslations_char L w0 tr0 langs hksome
        (fun q hq => hsub (w0, tr0) (by simp) q hq)
        (hnoduptr (w0, tr0) (by simp))
    have hksome₁ : ∀ l ∈ L, (jsGet langs₁ l).isSome = true := by
      intro l hl
      rw [jsGet_isSome_iff, hkeys₁, ← jsGet_isSome_iff]
      exact hksome l hl
    have hw0rest : w0 ∉ rest.map Prod.fst :=
      (List.nodup_cons.mp (by simpa using hnodupD)).1
    obtain ⟨langs', hres, hkeys', hcol'⟩ :=
      buildLangs_char L rest langs₁ hksome₁
        (fun p hp => hdom p (List.mem_cons_of_mem _ hp))
        (fun p hp => hsub p (List.mem_cons_of_mem _ hp))
        (fun p hp => hnoduptr p (List.mem_cons_of_mem _ hp))
        (by simpa using (List.nodup_cons.mp (by simpa using hnodupD)).2)
    refine ⟨langs', ?_, hkeys'.trans hkeys₁, ?_⟩
    · simp only [buildLangs, happ]
      exact hres
    · intro l hl word
      rw [hcol' l hl word]
      by_cases hww0 : word = w0
      · subst hww0
        have hnone : jsGet rest word = none := by
          cases hr : jsGet rest word with
          | none => rfl
          | some tr =>
            exact absurd ((jsGet_isSome_iff rest word).mp (by simp [hr]))
              hw0rest
        rw [hnone]
        have hcons : jsGet ((word, tr0) :: rest) word = some tr0 := by
          simp [jsGet]
        rw [hcons, hcol₁ l hl]
        obtain ⟨v, hv⟩ := Option.isSome_iff_exists.mp
          (hdom (word, tr0) (by simp) l hl)
        rw [show jsGet tr0 l = some v from hv]
        exact hv.symm
      · have hcons : jsGet ((w0, tr0) :: rest) word = jsGet rest word := by
          simp [jsGet, Ne.symm hww0]
        rw [hcons]
        cases hr : jsGet rest word with
        | some tr => rfl
        | none => exact hframe₁ l word hww0

theorem addFile_char (L : List String) (lang : String) (f : String → String) :
    ∀ (ks : List String) (nw : Dict) (k l' : String),
      dictLookup (addFileToNewWords L lang
          (ks.map (fun k' => (k', f k'))) nw) k l' =
        if k ∈ ks then
          (if l' = lang then some (f k) else newWordsCell L nw k l')
        else dictLookup nw k l'
  | [], nw, k, l' => by simp [addFileToNewWords]
  | k0 :: ks, nw, k, l' => by
    rw [List.map_cons]
    show dictLookup (addFileToNewWords L lang (ks.map (fun k' => (k', f k')))
      (dictSet nw k0 (objSet (match dictGet nw k0 with
        | some tr => tr
        | none => createEmptyLangObject L "") lang (f k0)))) k l' = _
    rw [addFile_char L lang f ks _ k l']
    by_cases hkk0 : k = k0
    · subst hkk0
      have hget : dictGet (dictSet nw k (objSet (match dictGet nw k with
          | some tr => tr
          | none => createEmptyLangObject L "") lang (f k))) k =
          some (objSet (match dictGet nw k with
            | some tr => tr
            | none => createEmptyLangObject L "") lang (f k)) :=
        jsGet_jsSet_self ..
      have hlook₁ : ∀ l'', dictLookup (dictSet nw k (objSet
          (match dictGet nw k with
            | some tr => tr
            | none => createEmptyLangObject L "") lang (f k))) k l'' =
          if l'' = lang then some (f k) else newWordsCell L nw k l'' := by
        intro l''
        unfold dictLookup
        rw [hget]
        show jsGet (jsSet _ lang (f k)) l'' = _
        by_cases hl : l'' = lang
        · subst hl
          rw [jsGet_jsSet_self, if_pos rfl]
        · rw [jsGet_jsSet_ne _ _ _ _ hl, if_neg hl]
          unfold newWordsCell
          cases dictGet nw k <;> rfl
      have hcell₁ : ∀ l'', l'' ≠ lang → newWordsCell L (dictSet nw k (objSet
          (match dictGet nw k with
            | some tr => tr
            | none => createEmptyLangObject L "") lang (f k))) k l'' =
          newWordsCell L nw k l'' := by
        intro l'' hl
        unfold newWordsCell
        rw [hget]
        show jsGet (jsSet _ lang (f k)) l'' = _
        rw [jsGet_jsSet_ne _ _ _ _ hl]
        cases dictGet nw k <;> rfl
      by_cases hks : k ∈ ks
      · rw [if_pos hks, if_pos (List.mem_cons_self k ks)]
        by_cases hl : l' = lang
        · rw [if_pos hl, if_pos hl]
        · rw [if_neg hl, if_neg hl, hcell₁ l' hl]
      · rw [if_neg hks, if_pos (List.mem_cons_self k ks), hlook₁ l']
    · have hset_ne : dictGet (dictSet nw k0 (objSet (match dictGet nw k0 with
          | some tr => tr
          | none => createEmptyLangObject L "") lang (f k0))) k =
          dictGet nw k := jsGet_jsSet_ne _ _ _ _ hkk0
      have hcell : newWordsCell L (dictSet nw k0 (objSet (match dictGet nw k0 with
          | some tr => tr
          | none => createEmptyLangObject L "") lang (f k0))) k l' =
          newWordsCell L nw k l' := by
        unfold newWordsCell
        rw [hset_ne]
      have hlook : dictLookup (dictSet nw k0 (objSet (match dictGet nw k0 with
          | some tr => tr
          | none => createEmptyLangObject L "") lang (f k0))) k l' =
          dictLookup nw k l' := by
        unfold dictLookup
        rw [hset_ne]
      rw [hcell, hlook]
      by_cases hks : k ∈ ks
      · rw [if_pos hks, if_pos (List.mem_cons_of_mem _ hks)]
      · have hnot : k ∉ k0 :: ks := by simp [hkk0, hks]
        rw [if_neg hks, if_neg hnot]

theorem addFile_isSome (L : List String) (lang : String) (f : String → String) :
    ∀ (ks : List String) (nw : Dict) (k : String),
      (dictGet (addFileToNewWords L lang
          (ks.map (fun k' => (k', f k'))) nw) k).isSome = true ↔
        (k ∈ ks ∨ (dictGet nw k).isSome = true)
  | [], nw, k => by simp [addFileToNewWords]
  | k0 :: ks, nw, k => by
    rw [List.map_cons]
    show (dictGet (addFileToNewWords L lang (ks.map (fun k' => (k', f k')))
      (dictSet nw k0 (objSet (match dictGet nw k0 with
        | some tr => tr
        | none => createEmptyLangObject L "") lang (f k0)))) k).isSome = true ↔ _
    rw [addFile_isSome L lang f ks _ k]
    by_cases hkk0 : k = k0
    · subst hkk0
      have hget : dictGet (dictSet nw k (objSet (match dictGet nw k with
          | some tr => tr
          | none => createEmptyLangObject L "") lang (f k))) k =
          some (objSet (match dictGet nw k with
            | some tr => tr
            | none => createEmptyLangObject L "") lang (f k)) :=
        jsGet_jsSet_self ..
      simp [hget]
    · have hset_ne : dictGet (dictSet nw k0 (objSet (match dictGet nw k0 with
          | some tr => tr
          | none => createEmptyLangObject L "") lang (f k0))) k =
          dictGet nw k := jsGet_jsSet_ne _ _ _ _ hkk0
      rw [hset_ne]
      simp [hkk0]

theorem newWordsFold_char (L : List String) (DK : List String)
    (V : String → String → String) :
    ∀ (fs : List (String × Obj)) (nw : Dict),
      (∀ p ∈ fs, ∃ ks : List String,
        p.2 = ks.map (fun k => (k, V p.1 k)) ∧ (∀ k, k ∈ ks ↔ k ∈ DK)) →
      ((fs.map Prod.fst).Nodup) →
      ∀ k l',
        dictLookup (fs.foldl
          (fun nw f => addFileToNewWords L f.1 f.2 nw) nw) k l' =
          if k ∈ DK then
            (if l' ∈ fs.map Prod.fst then some (V l' k)
             else match fs with
               | [] => dictLookup nw k l'
               | _ :: _ => newWordsCell L nw k l')
          else dictLookup nw k l'
  | [], nw, _, _, k, l' => by
    by_cases hdk : k ∈ DK <;> simp [hdk]
  | (l0, es0) :: rest, nw, hfs, hnodup, k, l' => by
    obtain ⟨ks0, hes0, hks0⟩ := hfs (l0, es0) (by simp)
    have hes0' : es0 = ks0.map (fun k => (k, V l0 k)) := hes0
    have hnodup' : (rest.map Prod.fst).Nodup :=
      (List.nodup_cons.mp (by simpa using hnodup)).2
    rw [List.foldl_cons]
    rw [newWordsFold_char L DK V rest (addFileToNewWords L l0 es0 nw)
      (fun p hp => hfs p (List.mem_cons_of_mem _ hp)) hnodup' k l']
    have hchar : ∀ l'', dictLookup (addFileToNewWords L l0 es0 nw) k l'' =
        if k ∈ ks0 then
          (if l'' = l0 then some (V l0 k) else newWordsCell L nw k l'')
        else dictLookup nw k l'' := by
      intro l''
      rw [hes0']
      exact addFile_char L l0 (V l0) ks0 nw k l''
    have hsome₁ : k ∈ DK →
        (dictGet (addFileToNewWords L l0 es0 nw) k).isSome = true := by
      intro hdk
      rw [hes0']
      exact (addFile_isSome L l0 (V l0) ks0 nw k).mpr (.inl ((hks0 k).mpr hdk))
    have hcell₁ : k ∈ DK → ∀ l'',
        newWordsCell L (addFileToNewWords L l0 es0 nw) k l'' =
        dictLookup (addFileToNewWords L l0 es0 nw) k l'' := by
      intro hdk l''
      obtain ⟨tr, htr⟩ := Option.isSome_iff_exists.mp (hsome₁ hdk)
      unfold newWordsCell dictLookup
      rw [htr]
      rfl
    by_cases hdk : k ∈ DK
    · rw [if_pos hdk, if_pos hdk]
      by_cases hrest : l' ∈ rest.map Prod.fst
      · have hm : l' ∈ List.map Prod.fst ((l0, es0) :: rest) := by
          simp [hrest]
        rw [if_pos hrest, if_pos hm]
      · rw [if_neg hrest]
        by_cases hl0 : l' = l0
        · have hm : l' ∈ List.map Prod.fst ((l0, es0) :: rest) := by
            simp [hl0]
          rw [if_pos hm]
          cases rest with
          | nil =>
            rw [hchar l', if_pos ((hks0 k).mpr hdk), if_pos hl0, hl0]
          | cons q qs =>
            rw [hcell₁ hdk l', hchar l', if_pos ((hks0 k).mpr hdk),
              if_pos hl0, hl0]
        · have hnm : l' ∉ List.map Prod.fst ((l0, es0) :: rest) := by
            simp [hl0, hrest]
          rw [if_neg hnm]
          cases rest with
          | nil =>
            rw [hchar l', if_pos ((hks0 k).mpr hdk), if_neg hl0]
          | cons q qs =>
            rw [hcell₁ hdk l', hchar l', if_pos ((hks0 k).mpr hdk),
              if_neg hl0]
    · rw [if_neg hdk, if_neg hdk]
      have hknotks : k ∉ ks0 := fun h => hdk ((hks0 k).mp h)
      rw [hchar l', if_neg hknotks]

theorem newWordsFold_isSome (L : List String) (DK : List String)
    (V : String → String → String) :
    ∀ (fs : List (String × Obj)) (nw : Dict),
      (∀ p ∈ fs, ∃ ks : List String,
        p.2 = ks.map (fun k => (k, V p.1 k)) ∧ (∀ k, k ∈ ks ↔ k ∈ DK)) →
      ∀ k,
        (dictGet (fs.foldl
          (fun nw f => addFileToNewWords L f.1 f.2 nw) nw) k).isSome = true ↔
          ((k ∈ DK ∧ fs ≠ []) ∨ (dictGet nw k).isSome = true)
  | [], nw, _, k => by simp
  | (l0, es0) :: rest, nw, hfs, k => by
    obtain ⟨ks0, hes0, hks0⟩ := hfs (l0, es0) (by simp)
    have hes0' : es0 = ks0.map (fun k => (k, V l0 k)) := hes0
    rw [List.foldl_cons]
    rw [newWordsFold_isSome L DK V rest (addFileToNewWords L l0 es0 nw)
      (fun p hp => hfs p (List.mem_cons_of_mem _ hp)) k]
    have hstep : (dictGet (addFileToNewWords L l0 es0 nw) k).isSome = true ↔
        (k ∈ ks0 ∨ (dictGet nw k).isSome = true) := by
      rw [hes0']
      exact addFile_isSome L l0 (V l0) ks0 nw k
    rw [hstep, hks0 k]
    constructor
    · rintro (⟨hdk, _⟩ | h | h)
      · exact .inl ⟨hdk, by simp⟩
      · exact .inl ⟨h, by simp⟩
      · exact .inr h
    · rintro (⟨hdk, _⟩ | h)
      · exact .inr (.inl hdk)
      · exact .inr (.inr h)

theorem mergeExisting_char :
    ∀ (E nw : Dict) (k l' : String),
      dictLookup (mergeExisting E nw) k l' =
        if (dictGet nw k).isSome = true then dictLookup nw k l'
        else dictLookup E k l'
  | [], nw, k, l' => by
    by_cases hs : (dictGet nw k).isSome = true
    · simp [mergeExisting, hs]
    · have hnone : dictGet nw k = none := Option.not_isSome_iff_eq_none.mp hs
      simp only [mergeExisting, List.foldl_nil, if_neg hs]
      unfold dictLookup
      rw [hnone]
      rfl
  | (k0, tr0) :: E', nw, k, l' => by
    show dictLookup (mergeExisting E'
      (if (dictGet nw k0).isSome = true then nw else dictSet nw k0 tr0)) k l' = _
    rw [mergeExisting_char E' _ k l']
    by_cases h0 : (dictGet nw k0).isSome = true
    · rw [if_pos h0]
      by_cases hk : k = k0
      · subst hk
        rw [if_pos h0, if_pos h0]
      · by_cases hs : (dictGet nw k).isSome = true
        · rw [if_pos hs, if_pos hs]
        · rw [if_neg hs, if_neg hs]
          unfold dictLookup dictGet
          rw [show jsGet ((k0, tr0) :: E') k = jsGet E' k by
            simp [jsGet, Ne.symm hk]]
    · rw [if_neg h0]
      by_cases hk : k = k0
      · subst hk
        have hset : dictGet (dictSet nw k tr0) k = some tr0 := jsGet_jsSet_self ..
        rw [if_pos (by simp [hset]), if_neg h0]
        unfold dictLookup dictGet
        rw [show jsGet (dictSet nw k tr0) k = some tr0 from hset]
        rw [show jsGet ((k, tr0) :: E') k = some tr0 by simp [jsGet]]
      · have hset : dictGet (dictSet nw k0 tr0) k = dictGet nw k :=
          jsGet_jsSet_ne _ _ _ _ hk
        rw [hset]
        by_cases hs : (dictGet nw k).isSome = true
        · rw [if_pos hs, if_pos hs]
          unfold dictLookup dictGet
          rw [show jsGet (dictSet nw k0 tr0) k = jsGet nw k from hset]
        · rw [if_neg hs, if_neg hs]
          unfold dictLookup dictGet
          rw [show jsGet ((k0, tr0) :: E') k = jsGet E' k by
            simp [jsGet, Ne.symm hk]]

theorem jsGet_mem {β : Type} :
    ∀ (d : List (String × β)) (k : String) (v : β),
      jsGet d k = some v → (k, v) ∈ d
  | [], _, _, h => by simp [jsGet] at h
  | p :: d, k, v, h => by
    by_cases hp : p.1 = k
    · simp only [jsGet, if_pos hp, Option.some.injEq] at h
      subst hp
      subst h
      exact List.mem_cons_self ..
    · simp only [jsGet, if_neg hp] at h
      exact List.mem_cons_of_mem _ (jsGet_mem d k v h)

/-- C7.  For a legacy dictionary in which every word has a translation
entry for exactly the selected languages (every selected language present,
none outside the subset — the latter is forced because `to-json` throws
otherwise), converting it to per-language catalogs (`to-json` /
`adminWords2languages`) and converting those catalogs back to a dictionary
(`to-words` / `adminLanguages2words`, merging with the still-on-disk
original `words.js`) reproduces exactly the `(key, language) → value`
pairs of the original dictionary.  Keys and per-word language lists are
unique, as JSON/object parsing guarantees. -/
theorem words_roundtrip (translateLanguages : List String)
    (data : List (String × List (String × String)))
    (hnodupL : translateLanguages.Nodup)
    (hnodupD : (data.map Prod.fst).Nodup)
    (hnoduptr : ∀ p ∈ data, (p.2.map Prod.fst).Nodup)
    (hdom : ∀ p ∈ data, ∀ l ∈ translateLanguages, (jsGet p.2 l).isSome = true)
    (hsub : ∀ p ∈ data, ∀ q ∈ p.2, q.1 ∈ translateLanguages) :
    ∃ catalogs, adminWords2languages translateLanguages data = .ok catalogs ∧
      ∀ k l,
        dictLookup (adminLanguages2words translateLanguages catalogs data)
          k l = dictLookup data k l := by
  have hkeysinit : jsKeys (translateLanguages.map
      (fun l => (l, ([] : Obj)))) = translateLanguages := by
    unfold jsKeys
    rw [List.map_map]
    exact List.map_id _
  have hksome : ∀ l ∈ translateLanguages,
      (jsGet (translateLanguages.map (fun l => (l, ([] : Obj)))) l).isSome =
        true := by
    intro l hl
    rw [jsGet_isSome_iff, hkeysinit]
    exact hl
  obtain ⟨langs', hbuild, hkeys', hcol⟩ := buildLangs_char translateLanguages
    data (translateLanguages.map (fun l => (l, ([] : Obj)))) hksome hdom hsub
    hnoduptr hnodupD
  have hkeysL : jsKeys langs' = translateLanguages := hkeys'.trans hkeysinit
  refine ⟨langs'.map (fun p => (p.1, sortObj p.2)), ?_, ?_⟩
  · simp only [adminWords2languages, hbuild]
  · have hcolval : ∀ p ∈ langs', ∀ word,
        objGet p.2 word = (match jsGet data word with
          | some tr => jsGet tr p.1
          | none => none) := by
      intro p hp word
      have hpl : p.1 ∈ translateLanguages := by
        rw [← hkeysL]
        exact List.mem_map.mpr ⟨p, hp, rfl⟩
      have hdg : dictGet langs' p.1 = some p.2 :=
        jsGet_of_mem_nodup langs' p (hkeysL ▸ hnodupL) hp
      have hthis := hcol p.1 hpl word
      unfold lookupLangs at hthis
      rw [show dictGet langs' p.1 = some p.2 from hdg] at hthis
      have hinit : lookupLangs (translateLanguages.map
          (fun l => (l, ([] : Obj)))) p.1 word = none := by
        unfold lookupLangs dictGet
        rw [jsGet_map_fun (fun _ => ([] : Obj)) p.1 translateLanguages,
          if_pos hpl]
        rfl
      cases hjs : jsGet data word with
      | some tr =>
        rw [hjs] at hthis
        exact hthis
      | none =>
        rw [hjs] at hthis
        rw [show (objGet p.2 word : Option String) =
          lookupLangs (translateLanguages.map (fun l => (l, ([] : Obj))))
            p.1 word from hthis, hinit]
    have hcatform : ∀ p ∈ langs'.map (fun p => (p.1, sortObj p.2)),
        ∃ ks : List String,
          p.2 = ks.map (fun k => (k, (fun l k =>
            (match jsGet data k with
              | some tr => (jsGet tr l).getD ""
              | none => "")) p.1 k)) ∧
          (∀ k, k ∈ ks ↔ k ∈ data.map Prod.fst) := by
      intro p hp
      obtain ⟨q, hq, hpq⟩ := List.mem_map.mp hp
      subst hpq
      refine ⟨sortKeys (jsKeys q.2), ?_, ?_⟩
      · show sortObj q.2 = _
        unfold sortObj objKeys
        apply List.map_congr_left
        intro k hk
        have hkq : k ∈ jsKeys q.2 := (mem_sortKeys k _).mp hk
        have hksome' : (objGet q.2 k).isSome = true :=
          (jsGet_isSome_iff q.2 k).mpr hkq
        rw [hcolval q hq k] at hksome'
        cases hjs : jsGet data k with
        | none => rw [hjs] at hksome'; simp at hksome'
        | some tr =>
          rw [hjs] at hksome'
          have hksome'' : (jsGet tr q.1).isSome = true := hksome'
          obtain ⟨v, hv⟩ := Option.isSome_iff_exists.mp hksome''
          have hval : objGet q.2 k = some v := by
            rw [hcolval q hq k, hjs]
            exact hv
          simp [hval, hjs, hv]
      · intro k
        rw [mem_sortKeys]
        constructor
        · intro hk
          have hksome' : (objGet q.2 k).isSome = true :=
            (jsGet_isSome_iff q.2 k).mpr hk
          rw [hcolval q hq k] at hksome'
          cases hjs : jsGet data k with
          | none => rw [hjs] at hksome'; simp at hksome'
          | some tr =>
            show k ∈ jsKeys data
            rw [← jsGet_isSome_iff]
            simp [hjs]
        · intro hk
          have hk' : k ∈ jsKeys data := hk
          obtain ⟨tr, htr⟩ := Option.isSome_iff_exists.mp
            ((jsGet_isSome_iff data k).mpr hk')
          have hql : q.1 ∈ translateLanguages := by
            rw [← hkeysL]
            exact List.mem_map.mpr ⟨q, hq, rfl⟩
          have hvs : (jsGet tr q.1).isSome = true :=
            hdom (k, tr) (jsGet_mem data k tr htr) q.1 hql
          apply (jsGet_isSome_iff q.2 k).mp
          show (objGet q.2 k).isSome = true
          rw [hcolval q hq k, htr]
          exact hvs
    have hcatmap : (langs'.map (fun p => (p.1, sortObj p.2))).map Prod.fst =
        translateLanguages := by
      rw [List.map_map]
      exact hkeysL
    have hcatnodup : ((langs'.map (fun p => (p.1, sortObj p.2))).map
        Prod.fst).Nodup := hcatmap ▸ hnodupL
    intro k l
    show dictLookup (mergeExisting data
      ((langs'.map (fun p => (p.1, sortObj p.2))).foldl
        (fun nw f => addFileToNewWords translateLanguages f.1 f.2 nw) [])) k l
      = dictLookup data k l
    rw [mergeExisting_char]
    by_cases hs : (dictGet ((langs'.map (fun p => (p.1, sortObj p.2))).foldl
        (fun nw f => addFileToNewWords translateLanguages f.1 f.2 nw) [])
        k).isSome = true
    · rw [if_pos hs]
      have hsiff := (newWordsFold_isSome translateLanguages
        (data.map Prod.fst)
        (fun l k => (match jsGet data k with
          | some tr => (jsGet tr l).getD ""
          | none => ""))
        (langs'.map (fun p => (p.1, sortObj p.2))) [] hcatform k).mp hs
      have hdk : k ∈ data.map Prod.fst := by
        rcases hsiff with ⟨h, _⟩ | h
        · exact h
        · simp [dictGet, jsGet] at h
      obtain ⟨tr, htr⟩ := Option.isSome_iff_exists.mp
        ((jsGet_isSome_iff data k).mpr hdk)
      have hdata : dictLookup data k l = jsGet tr l := by
        unfold dictLookup dictGet
        rw [htr]
        rfl
      rw [newWordsFold_char translateLanguages (data.map Prod.fst)
        (fun l k => (match jsGet data k with
          | some tr => (jsGet tr l).getD ""
          | none => ""))
        (langs'.map (fun p => (p.1, sortObj p.2))) [] hcatform hcatnodup k l,
        if_pos hdk, hcatmap]
      by_cases hl : l ∈ translateLanguages
      · rw [if_pos hl, hdata]
        obtain ⟨v, hv⟩ := Option.isSome_iff_exists.mp
          (hdom (k, tr) (jsGet_mem data k tr htr) l hl)
        rw [show jsGet tr l = some v from hv]
        simp only [htr, hv, Option.getD_some]
      · rw [if_neg hl, hdata]
        have htrl : jsGet tr l = none := by
          cases hj : jsGet tr l with
          | none => rfl
          | some v =>
            exact absurd (hsub (k, tr) (jsGet_mem data k tr htr) (l, v)
              (jsGet_mem tr l v hj)) hl
        rw [htrl]
        cases hcats : langs'.map (fun p => (p.1, sortObj p.2)) with
        | nil => rfl
        | cons c cs =>
          unfold newWordsCell dictGet
          rw [show (jsGet ([] : Dict) k : Option Obj) = none from rfl]
          unfold createEmptyLangObject objGet
          rw [jsGet_map_fun (fun _ => "") l translateLanguages, if_neg hl]
    · rw [if_neg hs]

/-- Witness for `words_roundtrip`: the dictionary
`{greeting: {en: Hello, de: Hallo}}` with the language subset
`[en, de]`. -/
theorem words_roundtrip_witness :
    ∃ catalogs, adminWords2languages ["en", "de"]
        [("greeting", [("en", "Hello"), ("de", "Hallo")])] = .ok catalogs ∧
      ∀ k l, dictLookup (adminLanguages2words ["en", "de"] catalogs
          [("greeting", [("en", "Hello"), ("de", "Hallo")])]) k l =
        dictLookup [("greeting", [("en", "Hello"), ("de", "Hallo")])] k l :=
  words_roundtrip ["en", "de"]
    [("greeting", [("en", "Hello"), ("de", "Hallo")])]
    (by decide) (by decide) (by decide) (by decide) (by decide)

end AdapterDev
